import Mathlib

/-!
Verification development for the OraiaClassical import core
(`DBOperations/import_verbs.py`).  The importer's pure transformation
functions (tag classification, form admission, heuristics, metadata merge)
and its stateful pipeline (entity resolution, sense/form insertion, skip
accounting) are shallowly embedded below; the SQLite store is modelled as
explicit lists of rows, one list per table, and the streaming input as a
list of lines.
-/

namespace Oraia

/-! ### Character-level string utilities

The Python string primitives used by the importer (`str.lower`, `str.strip`,
`str.replace`, `str.split`, `in`, `startswith`, `join`) are modelled over
the character list underlying a `String`, so every definition reduces in
the kernel. -/

/-- Python `str.lower()`. -/
def strLower (s : String) : String := String.mk (s.data.map Char.toLower)

/-- Python `str.strip()`: drop leading and trailing whitespace. -/
def strStrip (s : String) : String :=
  String.mk (((s.data.dropWhile Char.isWhitespace).reverse.dropWhile Char.isWhitespace).reverse)

/-- Does the pattern occur at the head of the text? -/
def listLeads : List Char → List Char → Bool
  | [], _ => true
  | _ :: _, [] => false
  | p :: ps, t :: ts => p == t && listLeads ps ts

/-- Does the pattern occur anywhere in the text (Python `in` on strings)? -/
def listHasInfix (pat : List Char) : List Char → Bool
  | [] => pat.isEmpty
  | c :: ts => listLeads pat (c :: ts) || listHasInfix pat ts

/-- Python `needle in hay` for strings. -/
def strContains (hay needle : String) : Bool := listHasInfix needle.data hay.data

/-- Python `s.startswith(p)`. -/
def strStarts (s p : String) : Bool := listLeads p.data s.data

/-- Remove every (non-overlapping, left-to-right) occurrence of `pat`,
fuel-indexed; fuel bounds the number of steps, each of which consumes at
least one character of the text. -/
def dropPatAux (pat : List Char) : Nat → List Char → List Char
  | 0, ts => ts
  | _ + 1, [] => []
  | fuel + 1, c :: rest =>
    if listLeads pat (c :: rest) then dropPatAux pat fuel (List.drop (pat.length - 1) rest)
    else c :: dropPatAux pat fuel rest

/-- Python `s.replace(pat, "")` for a non-empty literal pattern. -/
def strErase (s : String) (pat : String) : String :=
  String.mk (dropPatAux pat.data (s.data.length + 1) s.data)

/-- Python `s.replace(old, new)` where `old` and `new` are single characters. -/
def strReplaceChar (s : String) (old new : Char) : String :=
  String.mk (s.data.map (fun c => if c = old then new else c))

/-- Split a character list on a separator character (Python `str.split(sep)`). -/
def splitCharList (sep : Char) : List Char → List (List Char)
  | [] => [[]]
  | c :: rest =>
    let r := splitCharList sep rest
    if c = sep then [] :: r
    else
      match r with
      | h :: t => (c :: h) :: t
      | [] => [[c]]

/-- Python `s.split(sep)` for a single-character separator. -/
def strSplitChar (s : String) (sep : Char) : List String :=
  (splitCharList sep s.data).map String.mk

/-- Python `sep.join(parts)`. -/
def joinWith (sep : String) : List String → String
  | [] => ""
  | [s] => s
  | s :: rest => s ++ sep ++ joinWith sep rest

/-! ### Static vocabulary tables (source lines 97–211)

Python dicts with the source's insertion order, modelled as association
lists; membership tests and the first-match-wins iteration of `parse_tags`
depend on that order. -/

def DIALECT_TAGS : List (String × String) :=
  [("attic", "attic"), ("ionic", "ionic"), ("epic", "epic"), ("homeric", "homeric"),
   ("koine", "koine"), ("byzantine", "byzantine"), ("doric", "doric"), ("aeolic", "aeolic")]

def CASE_TAGS : List (String × String) :=
  [("nominative", "nominative"), ("genitive", "genitive"), ("dative", "dative"),
   ("accusative", "accusative"), ("vocative", "vocative")]

def NUMBER_TAGS : List (String × String) :=
  [("singular", "singular"), ("dual", "dual"), ("plural", "plural")]

def GENDER_TAGS : List (String × String) :=
  [("masculine", "masculine"), ("feminine", "feminine"), ("neuter", "neuter")]

def PERSON_TAGS : List (String × String) :=
  [("first-person", "first-person"), ("second-person", "second-person"),
   ("third-person", "third-person")]

def TENSE_TAGS : List (String × String) :=
  [("present", "present"), ("imperfect", "imperfect"), ("future", "future"),
   ("aorist", "aorist"), ("perfect", "perfect"), ("pluperfect", "pluperfect"),
   ("future-perfect", "future-perfect")]

def MOOD_TAGS : List (String × String) :=
  [("indicative", "indicative"), ("imperative", "imperative"),
   ("subjunctive", "subjunctive"), ("optative", "optative")]

def VOICE_TAGS : List (String × String) :=
  [("active", "active"), ("middle", "middle"), ("passive", "passive"),
   ("middle-passive", "middle-passive")]

def DEGREE_TAGS : List (String × String) :=
  [("positive", "positive"), ("comparative", "comparative"), ("superlative", "superlative")]

def VERB_FORM_TAGS : List (String × String) :=
  [("finite", "finite"), ("infinitive", "infinitive"), ("participle", "participle")]

def PRONOUN_TYPE_KEYWORDS : List String :=
  ["personal", "demonstrative", "relative", "interrogative", "indefinite",
   "reflexive", "reciprocal", "possessive", "proximal", "medial", "distal"]

def POS_ALIASES : List (String × String) :=
  [("adjective", "adj"), ("adj", "adj"), ("adverb", "adv"), ("adv", "adv"),
   ("pronoun", "pron"), ("pron", "pron"), ("preposition", "prep"), ("prep", "prep"),
   ("conjunction", "conj"), ("conj", "conj"), ("interjection", "intj"), ("intj", "intj"),
   ("determiner", "det"), ("det", "det"), ("article", "article"), ("particle", "particle"),
   ("noun", "noun"), ("verb", "verb"), ("number", "num"), ("num", "num"),
   ("proper noun", "name"), ("name", "name"), ("prefix", "prefix"), ("suffix", "suffix"),
   ("postposition", "postp"), ("postp", "postp")]

/-- First-match association lookup (Python `dict.get` / `dict[...]` on a
dict modelled as an insertion-ordered association list). -/
def assocLookup {β : Type} (k : String) : List (String × β) → Option β
  | [] => none
  | (k2, v) :: rest => if k2 = k then some v else assocLookup k rest

/-! ### Tag Classifier (source lines 305–325) -/

/-- The ten output slots of `parse_tags`: dialect plus the nine grammatical
feature slots (the `"case"` slot is named `gcase` because `case` is a Lean
keyword). -/
structure ParsedTags where
  dialect : Option String
  gcase : Option String
  number : Option String
  gender : Option String
  person : Option String
  tense : Option String
  mood : Option String
  voice : Option String
  degree : Option String
  verb_form_type : Option String
deriving Repr, DecidableEq

/-- Inner `pick` of `parse_tags`: scan the vocabulary in declaration order
and return the canonical value of the first key present in the lowercased
tag set. -/
def pick (mapping : List (String × String)) (tagsLc : List String) : Option String :=
  match mapping with
  | [] => none
  | (key, value) :: rest => if key ∈ tagsLc then some value else pick rest tagsLc

/-- `parse_tags`: classify a form's tag list into the ten slots.  The
Python builds the set `{t.lower() for t in tags}`; membership in that set
equals membership in the list of lowercased tags. -/
def parse_tags (tags : List String) : ParsedTags :=
  let tagsLc := tags.map strLower
  { dialect := pick DIALECT_TAGS tagsLc
    gcase := pick CASE_TAGS tagsLc
    number := pick NUMBER_TAGS tagsLc
    gender := pick GENDER_TAGS tagsLc
    person := pick PERSON_TAGS tagsLc
    tense := pick TENSE_TAGS tagsLc
    mood := pick MOOD_TAGS tagsLc
    voice := pick VOICE_TAGS tagsLc
    degree := pick DEGREE_TAGS tagsLc
    verb_form_type := pick VERB_FORM_TAGS tagsLc }

/-! ### Form admission filter (source lines 328–340) -/

/-- One element of an entry's `forms` list: `form` is `none` when the key
is missing (Python falsy test covers both missing and empty string). -/
structure FormEntry where
  form : Option String
  tags : List String
  source : Option String
deriving Repr, DecidableEq

/-- `should_keep_form`, clause for clause from the source. -/
def should_keep_form (fe : FormEntry) : Bool :=
  if fe.form = none ∨ fe.form = some "" then false
  else if fe.form = some "-" then false
  else
    let tags := fe.tags.map strLower
    if tags = [] then false
    else if "romanization" ∈ tags then false
    else if "inflection-template" ∈ tags ∨ "table-tags" ∈ tags ∨ "class" ∈ tags then false
    else true

/-! ### Entry model

Only the fields the importer reads.  `Arg` models a head-template argument
value, of which the source only inspects whether it is a string.  Entry- and
sense-level passthrough metadata enters the pipeline already flattened to
the nullable column values produced by `extract_entry_metadata` /
`dumps_or_none`, since no claim depends on the JSON serialization itself. -/

inductive Arg
  | str (s : String)
  | nonstr
deriving Repr, DecidableEq

structure HeadTemplate where
  args : List (String × Arg)
deriving Repr, DecidableEq

structure SenseJ where
  glosses : List String
  tags : List String
deriving Repr, DecidableEq

/-- The nine nullable lemma metadata columns written by
`update_lemma_metadata` (source lines 517–546), i.e. the output shape of
`extract_entry_metadata`. -/
structure LemmaMeta where
  etymology_text : Option String
  etymology_templates : Option String
  etymology_number : Option Int
  inflection_templates : Option String
  related : Option String
  synonyms : Option String
  antonyms : Option String
  categories : Option String
  entry_extra : Option String
deriving Repr, DecidableEq

def emptyMeta : LemmaMeta :=
  { etymology_text := none, etymology_templates := none, etymology_number := none
    inflection_templates := none, related := none, synonyms := none
    antonyms := none, categories := none, entry_extra := none }

structure Entry where
  lang_code : Option String
  pos : Option String
  word : Option String
  senses : List SenseJ
  forms : List FormEntry
  head_templates : List HeadTemplate
  meta : LemmaMeta
deriving Repr, DecidableEq

/-! ### Pronoun-subtype heuristic (source lines 343–360) -/

/-- Scan keywords in fixed order, returning the first that occurs as a
substring of the blob. -/
def firstKeyword : List String → String → Option String
  | [], _ => none
  | k :: rest, blob => if strContains blob k then some k else firstKeyword rest blob

/-- `extract_pronoun_type`: gather head-template `cat*` string arguments
and all sense tags, join with spaces, lowercase, and return the first
pronoun-subtype keyword occurring as a substring. -/
def extract_pronoun_type (e : Entry) : Option String :=
  let headCands := e.head_templates.flatMap (fun h =>
    h.args.filterMap (fun kv =>
      match kv.2 with
      | Arg.str v => if strStarts kv.1 "cat" then some v else none
      | Arg.nonstr => none))
  let senseCands := e.senses.flatMap (fun s => s.tags)
  let blob := strLower (joinWith " " (headCands ++ senseCands))
  firstKeyword PRONOUN_TYPE_KEYWORDS blob

/-! ### Governed-case heuristic (source lines 363–398) -/

/-- The fixed raw-token → canonical-case mapping inside `add_case`. -/
def CASE_NORMALIZE : List (String × String) :=
  [("gen", "genitive"), ("genitive", "genitive"), ("dat", "dative"),
   ("dative", "dative"), ("acc", "accusative"), ("accusative", "accusative")]

/-- Normalization step of `add_case`: strip, lowercase, map through
`CASE_NORMALIZE`; unrecognized tokens yield `none`. -/
def normCase (raw : String) : Option String := assocLookup (strLower (strStrip raw)) CASE_NORMALIZE

/-- `add_case`: append the normalized case to the accumulator unless it is
unrecognized or already present. -/
def add_case (cases : List String) (raw : String) : List String :=
  match normCase raw with
  | some c => if c ∈ cases then cases else cases ++ [c]
  | none => cases

/-- `value.replace(";", "/").replace(",", "/").split("/")` for the second
positional head-template argument. -/
def splitCaseArg (v : String) : List String :=
  strSplitChar (strReplaceChar (strReplaceChar v ';' '/') ',' '/') '/'

/-- `extract_governs_case`: the two accumulation loops of the source (sense
tags with a `with-` prefix, then the second positional argument of each
head-template), followed by the slash-join. -/
def extract_governs_case (e : Entry) : Option String :=
  let cases1 := e.senses.foldl (fun cs s =>
    s.tags.foldl (fun cs tag =>
      let tagLc := strLower tag
      if strStarts tagLc "with-" then add_case cs (strErase tagLc "with-") else cs) cs) []
  let cases2 := e.head_templates.foldl (fun cs h =>
    match assocLookup "2" h.args with
    | some (Arg.str v) => (splitCaseArg v).foldl add_case cs
    | _ => cs) cases1
  if cases2 = [] then none else some (joinWith "/" cases2)

/-! Spec-side rendering of the governed-case heuristic, following the
wording of the specification: collect the raw hints from the two sources in
order, normalize each (dropping unrecognized tokens), deduplicate keeping
first-seen order, and slash-join, absent when no hints were found. -/

/-- The raw case hint carried by one sense tag: the tag must begin with
`with-` (after lowercasing) and the hint is the tag with the `with-`
occurrences removed. -/
def withHint (tag : String) : Option String :=
  let tagLc := strLower tag
  if strStarts tagLc "with-" then some (strErase tagLc "with-") else none

/-- The raw case hints carried by one head-template: the split second
positional argument, when it is a string. -/
def headHint (h : HeadTemplate) : List String :=
  match assocLookup "2" h.args with
  | some (Arg.str v) => splitCaseArg v
  | _ => []

/-- Modelled from the spec: the raw case hints of an entry, in collection
order — sense tags beginning with `with-` (prefix removed), then the split
second positional head-template arguments. -/
def rawCaseHints (e : Entry) : List String :=
  (e.senses.flatMap (fun s => s.tags.filterMap withHint))
    ++ (e.head_templates.flatMap headHint)

/-- Deduplicate, keeping the first occurrence of each element. -/
def dedupFirstSeen (l : List String) : List String :=
  l.foldl (fun acc c => if c ∈ acc then acc else acc ++ [c]) []

/-- Modelled from the spec: governed-case heuristic as the spec words it. -/
def governs_case_spec (e : Entry) : Option String :=
  let cases := dedupFirstSeen ((rawCaseHints e).filterMap normCase)
  if cases = [] then none else some (joinWith "/" cases)

/-! ### Gloss extraction (source lines 452–458) -/

/-- `extract_gloss`: first gloss is the primary gloss (placeholder `"?"`
when the gloss list is missing/empty); remaining glosses join into the
secondary definition. -/
def extract_gloss (s : SenseJ) : String × Option String :=
  match s.glosses with
  | [] => ("?", none)
  | g :: rest => (g, if rest = [] then none else some (joinWith "; " rest))

/-! ### Schema Manager: `ensure_columns` (source lines 292–302)

A table's column list is modelled as `(name, declared storage type)` pairs
in column order; `ALTER TABLE ... ADD COLUMN name type` appends a column
with a null default.  As in the source, the set of existing names is
computed once, before the loop over the requested columns. -/

def ensure_columns (table : List (String × String)) (columns : List (String × String)) :
    List (String × String) :=
  let existing := table.map Prod.fst
  columns.foldl (fun acc p => if p.1 ∈ existing then acc else acc ++ [p]) table

/-! ### Metadata merge: `update_lemma_metadata` (source lines 517–546) -/

/-- SQL `COALESCE(a, b)`: first non-null argument. -/
def coalesce {α : Type} (a b : Option α) : Option α :=
  match a with
  | some x => some x
  | none => b

/-- Field-by-field `COALESCE(incoming, stored)` as in the UPDATE statement. -/
def coalesceMeta (incoming stored : LemmaMeta) : LemmaMeta :=
  { etymology_text := coalesce incoming.etymology_text stored.etymology_text
    etymology_templates := coalesce incoming.etymology_templates stored.etymology_templates
    etymology_number := coalesce incoming.etymology_number stored.etymology_number
    inflection_templates := coalesce incoming.inflection_templates stored.inflection_templates
    related := coalesce incoming.related stored.related
    synonyms := coalesce incoming.synonyms stored.synonyms
    antonyms := coalesce incoming.antonyms stored.antonyms
    categories := coalesce incoming.categories stored.categories
    entry_extra := coalesce incoming.entry_extra stored.entry_extra }

/-- The `if not any(value is not None ...)` early-return guard. -/
def metaAllNone (m : LemmaMeta) : Bool :=
  m.etymology_text.isNone && m.etymology_templates.isNone && m.etymology_number.isNone &&
  m.inflection_templates.isNone && m.related.isNone && m.synonyms.isNone &&
  m.antonyms.isNone && m.categories.isNone && m.entry_extra.isNone

/-! ### Database model -/

structure LemmaRow where
  id : Nat
  headword : String
  headword_norm : String
  meta : LemmaMeta
deriving Repr, DecidableEq

structure SenseRow where
  lemma_id : Nat
  pos_id : Nat
  gloss : String
  definition : Option String
  sense_order : Nat
deriving Repr, DecidableEq

structure FormRow where
  lemma_id : Nat
  pos_id : Nat
  form : String
  form_norm : String
  dialect_id : Option Nat
  tense : Option String
  mood : Option String
  voice : Option String
  person : Option String
  number : Option String
  grammatical_case : Option String
  gender : Option String
  degree : Option String
  verb_form_type : Option String
  is_principal_part : Nat
  pronoun_type : Option String
  governs_case : Option String
  tags : List String
  source : Option String
deriving Repr, DecidableEq

/-- The store: one list of rows per table, in rowid (insertion) order. -/
structure DB where
  lemmas : List LemmaRow
  pos : List (Nat × String)
  dialect : List (Nat × String)
  lemma_pos : List (Nat × Nat)
  sense : List SenseRow
  form : List FormRow
deriving Repr, DecidableEq

def emptyDB : DB := { lemmas := [], pos := [], dialect := [], lemma_pos := [], sense := [], form := [] }

/-- `normalize` (source line 276). -/
def normalize (text : String) : String := strLower text

/-- `update_lemma_metadata`: no-op when every incoming value is null,
otherwise field-wise `COALESCE(incoming, stored)` on the addressed row. -/
def update_lemma_metadata (db : DB) (lemma_id : Nat) (m : LemmaMeta) : DB :=
  if metaAllNone m then db
  else
    { db with
      lemmas := db.lemmas.map (fun r =>
        if r.id = lemma_id then { r with meta := coalesceMeta m r.meta } else r) }

/-! ### Import driver state -/

/-- In-process run state: the store, the three entity caches, the
accepted-entry counter, the five named skip-reason counters, and the
per-POS-code breakdown of allow-list rejections. -/
structure ImportState where
  db : DB
  posCache : List (String × Nat)
  dialectCache : List (String × Nat)
  lemmaCache : List ((String × String) × Nat)
  inserted : Nat
  json_decode_error : Nat
  non_grc : Nat
  missing_pos : Nat
  pos_not_allowed : Nat
  missing_headword : Nat
  skipped_pos_counts : List (String × Nat)
deriving Repr, DecidableEq

def initState (db : DB) : ImportState :=
  { db := db, posCache := [], dialectCache := [], lemmaCache := [], inserted := 0
    json_decode_error := 0, non_grc := 0, missing_pos := 0, pos_not_allowed := 0
    missing_headword := 0, skipped_pos_counts := [] }

/-- Key lookup in an entity cache. -/
def cacheLookup {κ : Type} [DecidableEq κ] (k : κ) : List (κ × Nat) → Option Nat
  | [] => none
  | (k2, v) :: rest => if k2 = k then some v else cacheLookup k rest

/-- `SELECT id FROM pos WHERE code = ?` (resp. dialect) over the row list. -/
def findByCode (code : String) : List (Nat × String) → Option Nat
  | [] => none
  | (i, c) :: rest => if c = code then some i else findByCode code rest

/-- `SELECT id FROM lemma WHERE headword = ? AND headword_norm = ?`. -/
def findLemma (headword headword_norm : String) : List LemmaRow → Option Nat
  | [] => none
  | r :: rest =>
    if r.headword = headword ∧ r.headword_norm = headword_norm then some r.id
    else findLemma headword headword_norm rest

/-- `ensure_pos` (source lines 401–411): cache hit, else store lookup (and
cache), else insert (and cache).  The new rowid is modelled as one past the
current row count. -/
def ensure_pos (st : ImportState) (code : String) : Nat × ImportState :=
  match cacheLookup code st.posCache with
  | some i => (i, st)
  | none =>
    match findByCode code st.db.pos with
    | some i => (i, { st with posCache := st.posCache ++ [(code, i)] })
    | none =>
      let newId := st.db.pos.length + 1
      (newId,
        { st with
          db := { st.db with pos := st.db.pos ++ [(newId, code)] }
          posCache := st.posCache ++ [(code, newId)] })

/-- `ensure_dialect` (source lines 414–424), identical shape. -/
def ensure_dialect (st : ImportState) (code : String) : Nat × ImportState :=
  match cacheLookup code st.dialectCache with
  | some i => (i, st)
  | none =>
    match findByCode code st.db.dialect with
    | some i => (i, { st with dialectCache := st.dialectCache ++ [(code, i)] })
    | none =>
      let newId := st.db.dialect.length + 1
      (newId,
        { st with
          db := { st.db with dialect := st.db.dialect ++ [(newId, code)] }
          dialectCache := st.dialectCache ++ [(code, newId)] })

/-- `ensure_lemma` (source lines 427–449): natural key is the
`(headword, normalized headword)` pair; a fresh row has all metadata null. -/
def ensure_lemma (st : ImportState) (headword : String) : Nat × ImportState :=
  let headword_norm := normalize headword
  let key := (headword, headword_norm)
  match cacheLookup key st.lemmaCache with
  | some i => (i, st)
  | none =>
    match findLemma headword headword_norm st.db.lemmas with
    | some i => (i, { st with lemmaCache := st.lemmaCache ++ [(key, i)] })
    | none =>
      let newId := st.db.lemmas.length + 1
      (newId,
        { st with
          db := { st.db with
            lemmas := st.db.lemmas ++
              [{ id := newId, headword := headword, headword_norm := headword_norm
                 meta := emptyMeta }] }
          lemmaCache := st.lemmaCache ++ [(key, newId)] })

/-- `INSERT OR IGNORE INTO lemma_pos`: primary key `(lemma_id, pos_id)`. -/
def insertLemmaPos (db : DB) (lemma_id pos_id : Nat) : DB :=
  if (lemma_id, pos_id) ∈ db.lemma_pos then db
  else { db with lemma_pos := db.lemma_pos ++ [(lemma_id, pos_id)] }

/-- The sense rows appended for one accepted entry, with `enumerate` index
as `sense_order` (source lines 611–641). -/
def senseRowsAux (lemma_id pos_id : Nat) : Nat → List SenseJ → List SenseRow
  | _, [] => []
  | idx, s :: rest =>
    { lemma_id := lemma_id, pos_id := pos_id, gloss := (extract_gloss s).1
      definition := (extract_gloss s).2, sense_order := idx }
      :: senseRowsAux lemma_id pos_id (idx + 1) rest

def senseRows (lemma_id pos_id : Nat) (senses : List SenseJ) : List SenseRow :=
  senseRowsAux lemma_id pos_id 0 senses

/-- Body of the form loop for one admitted form entry (source lines
643–687): resolve the dialect (if the classifier found one) and append the
form row. -/
def insertForm (lemma_id pos_id : Nat) (pronoun_type governs_case : Option String)
    (st : ImportState) (fe : FormEntry) : ImportState :=
  let form_text := fe.form.getD ""
  let form_norm := normalize form_text
  let tags := fe.tags
  let parsed := parse_tags tags
  let dp : Option Nat × ImportState :=
    match parsed.dialect with
    | some d =>
      let r := ensure_dialect st d
      (some r.1, r.2)
    | none => (none, st)
  { dp.2 with
    db := { dp.2.db with
      form := dp.2.db.form ++
        [{ lemma_id := lemma_id, pos_id := pos_id, form := form_text, form_norm := form_norm
           dialect_id := dp.1, tense := parsed.tense, mood := parsed.mood
           voice := parsed.voice, person := parsed.person, number := parsed.number
           grammatical_case := parsed.gcase, gender := parsed.gender, degree := parsed.degree
           verb_form_type := parsed.verb_form_type, is_principal_part := 0
           pronoun_type := pronoun_type, governs_case := governs_case
           tags := tags, source := fe.source }] } }

/-- The form loop: skip form entries failing the admission filter. -/
def runForms (lemma_id pos_id : Nat) (pronoun_type governs_case : Option String)
    (st : ImportState) : List FormEntry → ImportState
  | [] => st
  | fe :: rest =>
    runForms lemma_id pos_id pronoun_type governs_case
      (if should_keep_form fe then insertForm lemma_id pos_id pronoun_type governs_case st fe
       else st) rest

/-- Increment of the per-POS-code skip breakdown (`skipped_pos_counts`). -/
def bumpCount (l : List (String × Nat)) (k : String) : List (String × Nat) :=
  match l with
  | [] => [(k, 1)]
  | (k2, v) :: rest => if k2 = k then (k2, v + 1) :: rest else (k2, v) :: bumpCount rest k

/-- The extract-resolve-persist body run for an entry that passed all
three inclusion filters (source lines 599–689): resolve POS and lemma,
merge lemma metadata, compute the two POS-specific heuristics, record the
lemma-POS association, append the sense rows, run the form loop, and bump
the accepted-entry counter. -/
def processAccepted (st : ImportState) (e : Entry) : ImportState :=
  let pos_code := strStrip (e.pos.getD "")
  let headword := e.word.getD ""
  let pr := ensure_pos st pos_code
  let lr := ensure_lemma pr.2 headword
  let st2 := { lr.2 with db := update_lemma_metadata lr.2.db lr.1 e.meta }
  let pronoun_type := if pos_code = "pron" then extract_pronoun_type e else none
  let governs_case := if pos_code = "prep" then extract_governs_case e else none
  let st3 := { st2 with db := insertLemmaPos st2.db lr.1 pr.1 }
  let st4 := { st3 with
    db := { st3.db with sense := st3.db.sense ++ senseRows lr.1 pr.1 e.senses } }
  let st5 := runForms lr.1 pr.1 pronoun_type governs_case st4 e.forms
  { st5 with inserted := st5.inserted + 1 }

/-- Processing of one successfully parsed entry (main loop of
`import_jsonl`, source lines 582–689): the three inclusion filters, then
the extract-resolve-persist body, then the accepted-entry counter. -/
def processEntry (allowed : List String) (st : ImportState) (e : Entry) : ImportState :=
  if e.lang_code ≠ some "grc" then { st with non_grc := st.non_grc + 1 }
  else
    let pos_code := strStrip (e.pos.getD "")
    if pos_code = "" then { st with missing_pos := st.missing_pos + 1 }
    else if pos_code ∉ allowed then
      { st with pos_not_allowed := st.pos_not_allowed + 1
                skipped_pos_counts := bumpCount st.skipped_pos_counts pos_code }
    else
      let headword := e.word.getD ""
      if headword = "" then { st with missing_headword := st.missing_headword + 1 }
      else processAccepted st e

/-- One input line: blank (stripped empty, silently skipped before any
tallying), malformed JSON, or a parsed entry object. -/
inductive Line
  | blank
  | malformed
  | parsed (e : Entry)
deriving Repr, DecidableEq

def isBlank : Line → Bool
  | Line.blank => true
  | _ => false

/-- One iteration of the line loop of `import_jsonl`. -/
def processLine (allowed : List String) (st : ImportState) (l : Line) : ImportState :=
  match l with
  | Line.blank => st
  | Line.malformed => { st with json_decode_error := st.json_decode_error + 1 }
  | Line.parsed e => processEntry allowed st e

def runLines (allowed : List String) (st : ImportState) : List Line → ImportState
  | [] => st
  | l :: rest => runLines allowed (processLine allowed st l) rest

/-- `import_jsonl` (source lines 549–694) over a stream of lines against an
existing store, with fresh (empty) in-process caches. -/
def import_jsonl (db : DB) (lines : List Line) (allowed : List String) : ImportState :=
  runLines allowed (initState db) lines

/-! ### POS allow-list parsing (source lines 727–735) -/

/-- `parse_pos_list`: split the configured string on commas, strip and
lowercase each item, drop empties, normalize through `POS_ALIASES`, and
collect into a set (modelled as a deduplicated list). -/
def parse_pos_list (s : String) : List String :=
  (strSplitChar s ',').foldl (fun acc item =>
    let raw := strLower (strStrip item)
    if raw = "" then acc
    else
      let mapped := (assocLookup raw POS_ALIASES).getD raw
      if mapped ∈ acc then acc else acc ++ [mapped]) []

/-! ### Spec-side derived notions used by the theorems -/

/-- The acceptance condition of the driver's filter chain, as a pure
predicate on one entry (it does not depend on the run state). -/
def Accepts (allowed : List String) (e : Entry) : Prop :=
  e.lang_code = some "grc" ∧ strStrip (e.pos.getD "") ≠ "" ∧
    strStrip (e.pos.getD "") ∈ allowed ∧ e.word.getD "" ≠ ""

instance (allowed : List String) (e : Entry) : Decidable (Accepts allowed e) := by
  unfold Accepts; infer_instance

/-- The entries of a stream that pass all driver filters. -/
def acceptedEntries (allowed : List String) : List Line → List Entry
  | [] => []
  | Line.parsed e :: rest =>
    if Accepts allowed e then e :: acceptedEntries allowed rest
    else acceptedEntries allowed rest
  | _ :: rest => acceptedEntries allowed rest

/-- Number of non-blank lines of the stream. -/
def countNonBlank : List Line → Nat
  | [] => 0
  | Line.blank :: rest => countNonBlank rest
  | _ :: rest => countNonBlank rest + 1

/-- Sum of the five named skip-reason counters. -/
def skipTally (st : ImportState) : Nat :=
  st.json_decode_error + st.non_grc + st.missing_pos + st.pos_not_allowed + st.missing_headword

def sumBy {α : Type} (f : α → Nat) : List α → Nat
  | [] => 0
  | a :: l => f a + sumBy f l

/-- POS codes present in the store. -/
def posCodes (db : DB) : List String := db.pos.map Prod.snd

/-- Dialect codes present in the store. -/
def dialectCodes (db : DB) : List String := db.dialect.map Prod.snd

/-- Natural keys of the lemma rows present in the store. -/
def lemmaKeys (db : DB) : List (String × String) :=
  db.lemmas.map (fun r => (r.headword, r.headword_norm))

/-- The POS code an accepted entry resolves. -/
def needPos (e : Entry) : String := strStrip (e.pos.getD "")

/-- The lemma natural key an accepted entry resolves. -/
def needKey (e : Entry) : String × String := (e.word.getD "", normalize (e.word.getD ""))

/-- The dialect codes an accepted entry resolves (one per admitted form
whose tag classification carries a dialect). -/
def needDialects (e : Entry) : List String :=
  (e.forms.filter (fun fe => should_keep_form fe)).filterMap
    (fun fe => (parse_tags fe.tags).dialect)

/-- Number of admitted forms of an entry. -/
def keptForms (e : Entry) : Nat := (e.forms.filter (fun fe => should_keep_form fe)).length

/-- Invariant of the POS cache: every cached code names a stored POS row
(cache entries are only created from store lookups or store inserts). -/
def posCacheOk (st : ImportState) : Prop := ∀ p ∈ st.posCache, p.1 ∈ posCodes st.db

/-- Invariant of the dialect cache. -/
def dialectCacheOk (st : ImportState) : Prop := ∀ p ∈ st.dialectCache, p.1 ∈ dialectCodes st.db

/-- Invariant of the lemma cache. -/
def lemmaCacheOk (st : ImportState) : Prop := ∀ p ∈ st.lemmaCache, p.1 ∈ lemmaKeys st.db

/-- All three entity caches are consistent with the store. -/
def cachesOk (st : ImportState) : Prop := posCacheOk st ∧ dialectCacheOk st ∧ lemmaCacheOk st

/-- Modelled from the spec: the rejection condition of the form admission
filter as the spec words it. -/
def formRejectSpec (fe : FormEntry) : Prop :=
  fe.form = none ∨ fe.form = some "" ∨ fe.form = some "-" ∨ fe.tags = [] ∨
    ∃ t ∈ fe.tags,
      strLower t ∈ (["romanization", "inflection-template", "table-tags", "class"] : List String)

/-! ### Shared concrete inputs for witnesses and counterexamples -/

/-- The spec's end-to-end example entry (section 8), in ASCII romanization. -/
def demoEntry : Entry :=
  { lang_code := some "grc", pos := some "noun", word := some "Logos"
    senses := [{ glosses := ["word", "speech"], tags := [] }]
    forms := [{ form := some "logou", tags := ["genitive", "singular"], source := none }]
    head_templates := [], meta := emptyMeta }

/-- A stored lemma metadata record whose etymology field is populated. -/
def c1Stored : LemmaMeta := { emptyMeta with etymology_text := some "from-PIE" }

/-- A store holding one lemma whose etymology field is already non-null. -/
def c1DB : DB :=
  { emptyDB with
    lemmas := [{ id := 1, headword := "logos", headword_norm := "logos", meta := c1Stored }] }

/-- A later import line's metadata carrying a new, different etymology. -/
def c1Incoming : LemmaMeta := { emptyMeta with etymology_text := some "reimported-different" }

/-- An accepted entry with one sense whose gloss list is empty. -/
def c10Entry : Entry :=
  { lang_code := some "grc", pos := some "noun", word := some "anonymos"
    senses := [{ glosses := [], tags := [] }]
    forms := [], head_templates := [], meta := emptyMeta }

/-- An entry whose `pos` field is the long form `"adjective"`. -/
def c9Entry : Entry :=
  { lang_code := some "grc", pos := some "adjective", word := some "kalos"
    senses := [{ glosses := ["beautiful"], tags := [] }]
    forms := [], head_templates := [], meta := emptyMeta }

/-- The key sets of the ten tag vocabularies, in source order. -/
def vocabKeyLists : List (List String) :=
  [DIALECT_TAGS.map Prod.fst, CASE_TAGS.map Prod.fst, NUMBER_TAGS.map Prod.fst,
   GENDER_TAGS.map Prod.fst, PERSON_TAGS.map Prod.fst, TENSE_TAGS.map Prod.fst,
   MOOD_TAGS.map Prod.fst, VOICE_TAGS.map Prod.fst, DEGREE_TAGS.map Prod.fst,
   VERB_FORM_TAGS.map Prod.fst]

end Oraia

namespace Oraia

/-! ## C7: vocabulary disjointness -/

set_option maxHeartbeats 1000000 in
/-- C7: the key sets of the static vocabulary tables `DIALECT_TAGS`,
`CASE_TAGS`, `NUMBER_TAGS`, `GENDER_TAGS`, `PERSON_TAGS`, `TENSE_TAGS`,
`MOOD_TAGS`, `VOICE_TAGS`, `DEGREE_TAGS`, `VERB_FORM_TAGS` are pairwise
disjoint: no tag token belongs to more than one category vocabulary. -/
theorem claim_C7 : vocabKeyLists.Pairwise (fun a b => ∀ s ∈ a, s ∉ b) := by decide

/-! ## C1: lemma metadata merge is last-non-null-wins, not fill-if-absent -/

set_option maxHeartbeats 1000000 in
/-- C1 counterexample: re-importing a lemma whose etymology field is
populated (`"from-PIE"`), with a new different etymology value, does NOT
leave the original value unchanged — `update_lemma_metadata` overwrites it,
refuting the fill-if-absent reading. -/
theorem claim_C1_cex :
    ¬ ((update_lemma_metadata c1DB 1 c1Incoming).lemmas.map (fun r => r.meta.etymology_text) =
       c1DB.lemmas.map (fun r => r.meta.etymology_text)) := by decide

/-- All-null incoming metadata merges to the stored record unchanged. -/
lemma coalesceMeta_of_allNone (m x : LemmaMeta) (hm : metaAllNone m = true) :
    coalesceMeta m x = x := by
  rcases m with ⟨a1, a2, a3, a4, a5, a6, a7, a8, a9⟩
  simp only [metaAllNone, Bool.and_eq_true, Option.isNone_iff_eq_none] at hm
  obtain ⟨⟨⟨⟨⟨⟨⟨⟨h1, h2⟩, h3⟩, h4⟩, h5⟩, h6⟩, h7⟩, h8⟩, h9⟩ := hm
  subst h1; subst h2; subst h3; subst h4; subst h5; subst h6; subst h7; subst h8; subst h9
  rfl

/-- C1 (amended): `update_lemma_metadata` applies field-wise
`COALESCE(incoming, stored)` to the addressed lemma row and leaves every
other row untouched — an incoming non-null value always overwrites the
stored value (even a non-null one), and an incoming null value leaves the
stored value unchanged (last-non-null-wins per field, the reverse of
fill-if-absent). -/
theorem claim_C1_amended :
    (∀ (db : DB) (lemma_id : Nat) (m : LemmaMeta),
      (update_lemma_metadata db lemma_id m).lemmas =
        db.lemmas.map (fun r =>
          if r.id = lemma_id then { r with meta := coalesceMeta m r.meta } else r)) ∧
    (∀ (a b : Option String), coalesce a b = if a.isSome then a else b) := by
  constructor
  · intro db lemma_id m
    unfold update_lemma_metadata
    by_cases hm : metaAllNone m = true
    · have hrow : ∀ r : LemmaRow,
          (if r.id = lemma_id then { r with meta := coalesceMeta m r.meta } else r) = r := by
        intro r
        rw [coalesceMeta_of_allNone m r.meta hm]
        split <;> rfl
      simp [hm, hrow]
    · simp [hm]
  · intro a b
    cases a <;> rfl

/-! ## C5: form admission filter -/

/-- C5: a form entry is rejected by `should_keep_form` exactly when its
literal text is missing/empty or the placeholder `"-"`, or its tag list is
empty, or a lowercased tag is one of the blocklisted structural tags; the
entry `(form := "-", tags := ["table-tags"])` is rejected, and each of its
two defects already forces rejection on its own. -/
theorem claim_C5 (fe : FormEntry) :
    (should_keep_form fe = false ↔ formRejectSpec fe) ∧
    should_keep_form { form := some "-", tags := ["table-tags"], source := none } = false ∧
    should_keep_form { form := some "-", tags := ["genitive"], source := none } = false ∧
    should_keep_form { form := some "nice", tags := ["table-tags"], source := none } = false := by
  refine ⟨?_, by decide, by decide, by decide⟩
  rcases fe with ⟨f, tags, src⟩
  simp only [should_keep_form, formRejectSpec, List.mem_cons, List.not_mem_nil, or_false]
  split_ifs with h1 h2 h3 h4 h5 <;>
    simp_all [List.mem_map, List.map_eq_nil_iff] <;> aesop

/-! ## C6: schema column evolution -/

/-- Appending behaviour of the `ensure_columns` fold against a fixed
pre-computed set of existing column names. -/
lemma foldl_addAbsent (ex : List String) (cols acc : List (String × String)) :
    cols.foldl (fun a p => if p.1 ∈ ex then a else a ++ [p]) acc =
      acc ++ cols.filter (fun p => p.1 ∉ ex) := by
  induction cols generalizing acc with
  | nil => simp
  | cons p rest ih =>
    by_cases hp : p.1 ∈ ex
    · simp [List.foldl, hp, ih]
    · simp [List.foldl, hp, ih]

/-- C6: `ensure_columns` appends exactly the declared columns whose names
are not already present, in declaration order and with their declared
storage types, leaving the existing column list untouched as a verbatim
prefix; applying it a second time with the same declaration adds nothing
and changes nothing. -/
theorem claim_C6 (table columns : List (String × String)) :
    ensure_columns table columns =
      table ++ columns.filter (fun p => p.1 ∉ table.map Prod.fst) ∧
    ensure_columns (ensure_columns table columns) columns = ensure_columns table columns := by
  have heq : ∀ t : List (String × String),
      ensure_columns t columns = t ++ columns.filter (fun p => p.1 ∉ t.map Prod.fst) := by
    intro t
    unfold ensure_columns
    exact foldl_addAbsent (t.map Prod.fst) columns t
  refine ⟨heq table, ?_⟩
  rw [heq (ensure_columns table columns)]
  have hnil : columns.filter (fun p => p.1 ∉ (ensure_columns table columns).map Prod.fst) = [] := by
    rw [List.filter_eq_nil_iff]
    intro p hp
    simp only [decide_eq_true_eq, Decidable.not_not]
    rw [heq table, List.map_append, List.mem_append]
    by_cases hmem : p.1 ∈ table.map Prod.fst
    · exact Or.inl hmem
    · refine Or.inr ?_
      have hf : p ∈ columns.filter (fun p => p.1 ∉ table.map Prod.fst) :=
        List.mem_filter.mpr ⟨hp, by simpa using hmem⟩
      exact List.mem_map.mpr ⟨p, hf, rfl⟩
  rw [hnil, List.append_nil]

/-! ## C9: POS allow-list matching -/

set_option maxHeartbeats 1000000 in
/-- C9 counterexample: with the allow-list configured as `"adjective"`
(normalized to `"adj"`), an entry whose `pos` is `"adjective"` is NOT
accepted — it is skipped and tallied under `pos_not_allowed` — refuting the
claim that such an entry is accepted. -/
theorem claim_C9_cex :
    ¬ Accepts (parse_pos_list "adjective") c9Entry ∧
    (import_jsonl emptyDB [Line.parsed c9Entry] (parse_pos_list "adjective")).pos_not_allowed = 1 ∧
    (import_jsonl emptyDB [Line.parsed c9Entry] (parse_pos_list "adjective")).inserted = 0 := by
  refine ⟨by decide, by decide, by decide⟩

set_option maxHeartbeats 1000000 in
/-- C9 (amended): the configured comma-separated allow-list is parsed
case-insensitively with aliases normalized (`"adjective"` → `"adj"`), but
an entry's `pos` code is matched literally (case-sensitively, with NO alias
normalization) against the normalized allow-list — so an entry whose `pos`
is the already-short code `"adj"` is accepted under allow-list
`"adjective"`, while an entry whose `pos` is `"adjective"` or `"Adj"` is
rejected. -/
theorem claim_C9_amended :
    parse_pos_list "adjective" = ["adj"] ∧
    parse_pos_list " ADJECTIVE " = ["adj"] ∧
    (∀ (allowed : List String) (e : Entry),
      Accepts allowed e → strStrip (e.pos.getD "") ∈ allowed) ∧
    Accepts (parse_pos_list "adjective") { c9Entry with pos := some "adj" } ∧
    ¬ Accepts (parse_pos_list "adj") { c9Entry with pos := some "Adj" } ∧
    (import_jsonl emptyDB [Line.parsed { c9Entry with pos := some "adj" }]
      (parse_pos_list "adjective")).inserted = 1 := by
  refine ⟨by decide, by decide, ?_, by decide, by decide, by decide⟩
  intro allowed e he
  exact he.2.2.1

/-- Witness for C9 (amended): the literal-matching component applied to a
concrete accepted entry. -/
theorem claim_C9_amended_witness :
    strStrip (((c9Entry.pos.map (fun _ => "adj")).getD "")) ∈ parse_pos_list "adjective" := by
  have h := claim_C9_amended.2.2.1 (parse_pos_list "adjective")
    { c9Entry with pos := some "adj" } (by decide)
  simpa using h

/-! ## C4: tag classifier determinism and input-order independence -/

/-- C4: two tag lists with the same underlying set of tokens (any
permutation, any duplication) classify identically in all ten output slots
of `parse_tags`; and, being pure functions of the entry, the
pronoun-subtype and governed-case heuristics return the same output on
repeated runs over a fixed entry. -/
theorem claim_C4 (t1 t2 : List String) (e : Entry) (hset : ∀ s, s ∈ t1 ↔ s ∈ t2) :
    parse_tags t1 = parse_tags t2 ∧
    extract_pronoun_type e = extract_pronoun_type e ∧
    extract_governs_case e = extract_governs_case e := by
  refine ⟨?_, rfl, rfl⟩
  have hmem : ∀ k, (k ∈ t1.map strLower) ↔ (k ∈ t2.map strLower) := by
    intro k
    simp only [List.mem_map]
    constructor
    · rintro ⟨t, ht, rfl⟩
      exact ⟨t, (hset t).mp ht, rfl⟩
    · rintro ⟨t, ht, rfl⟩
      exact ⟨t, (hset t).mpr ht, rfl⟩
  have hpick : ∀ m : List (String × String),
      pick m (t1.map strLower) = pick m (t2.map strLower) := by
    intro m
    induction m with
    | nil => rfl
    | cons p rest ih =>
      obtain ⟨k, v⟩ := p
      simp only [pick]
      exact if_congr (hmem k) rfl ih
  simp only [parse_tags]
  rw [hpick DIALECT_TAGS, hpick CASE_TAGS, hpick NUMBER_TAGS, hpick GENDER_TAGS,
    hpick PERSON_TAGS, hpick TENSE_TAGS, hpick MOOD_TAGS, hpick VOICE_TAGS,
    hpick DEGREE_TAGS, hpick VERB_FORM_TAGS]

/-- Witness for C4: a permuted, duplicated tag list classifies identically. -/
theorem claim_C4_witness :
    parse_tags ["singular", "genitive"] = parse_tags ["genitive", "singular", "genitive"] ∧
    extract_pronoun_type demoEntry = extract_pronoun_type demoEntry ∧
    extract_governs_case demoEntry = extract_governs_case demoEntry :=
  claim_C4 ["singular", "genitive"] ["genitive", "singular", "genitive"] demoEntry
    (fun s => by simp only [List.mem_cons, List.not_mem_nil, or_false]; tauto)

end Oraia

namespace Oraia

/-! ## C8: governed-case heuristic refines its specification -/

/-- Folding `add_case` over raw tokens equals folding plain
insert-if-absent over the normalized tokens. -/
lemma foldl_add_case (raws acc : List String) :
    raws.foldl add_case acc =
      (raws.filterMap normCase).foldl (fun a c => if c ∈ a then a else a ++ [c]) acc := by
  induction raws generalizing acc with
  | nil => rfl
  | cons r rest ih =>
    cases h : normCase r <;>
      simp [List.filterMap_cons, h, add_case, ih, List.foldl_cons]

/-- The inner sense-tag loop of `extract_governs_case` equals filtering the
tags down to their `with-` hints first. -/
lemma tags_foldl_with (tags cs : List String) :
    tags.foldl (fun cs tag =>
        let tagLc := strLower tag
        if strStarts tagLc "with-" then add_case cs (strErase tagLc "with-") else cs) cs =
      (tags.filterMap withHint).foldl add_case cs := by
  induction tags generalizing cs with
  | nil => rfl
  | cons t rest ih =>
    by_cases h : strStarts (strLower t) "with-" = true <;>
      simp [List.foldl_cons, List.filterMap_cons, withHint, h, ih]

/-- The outer sense loop flattens into one fold over the concatenated
per-sense hints. -/
lemma senses_foldl_flat (senses : List SenseJ) (cs : List String) :
    senses.foldl (fun cs s => (s.tags.filterMap withHint).foldl add_case cs) cs =
      (senses.flatMap (fun s => s.tags.filterMap withHint)).foldl add_case cs := by
  induction senses generalizing cs with
  | nil => rfl
  | cons s rest ih =>
    simp [List.foldl_cons, List.flatMap_cons, List.foldl_append, ih]

/-- The head-template loop flattens into one fold over the concatenated
per-template hints. -/
lemma heads_foldl_flat (hts : List HeadTemplate) (cs : List String) :
    hts.foldl (fun cs h =>
        match assocLookup "2" h.args with
        | some (Arg.str v) => (splitCaseArg v).foldl add_case cs
        | _ => cs) cs =
      (hts.flatMap headHint).foldl add_case cs := by
  induction hts generalizing cs with
  | nil => rfl
  | cons h rest ih =>
    simp only [List.foldl_cons, List.flatMap_cons, List.foldl_append]
    rw [ih]
    congr 1
    unfold headHint
    rcases hv : assocLookup "2" h.args with _ | a
    · rfl
    · cases a <;> simp [hv]

/-- C8: `extract_governs_case` computes exactly what the spec describes —
collect case hints from sense tags beginning with `with-` and from the
split second positional head-template argument, normalize each raw token
through the fixed gen/dat/acc mapping (dropping unrecognized tokens),
deduplicate in first-seen order, and return the slash-joined list, or
`none` when no case hints were found. -/
theorem claim_C8 (e : Entry) : extract_governs_case e = governs_case_spec e := by
  simp only [extract_governs_case, governs_case_spec]
  have hlam : (fun (cs : List String) (s : SenseJ) =>
      s.tags.foldl (fun cs tag =>
        let tagLc := strLower tag
        if strStarts tagLc "with-" then add_case cs (strErase tagLc "with-") else cs) cs) =
      (fun (cs : List String) (s : SenseJ) => (s.tags.filterMap withHint).foldl add_case cs) := by
    funext cs s
    exact tags_foldl_with s.tags cs
  rw [hlam, senses_foldl_flat, heads_foldl_flat, ← List.foldl_append, ← rawCaseHints,
    foldl_add_case, ← dedupFirstSeen]

end Oraia

namespace Oraia

/-! ## Basic lookup lemmas -/

lemma cacheLookup_mem {κ : Type} [DecidableEq κ] (k : κ) (l : List (κ × Nat)) (v : Nat)
    (h : cacheLookup k l = some v) : (k, v) ∈ l := by
  induction l with
  | nil => simp [cacheLookup] at h
  | cons p rest ih =>
    obtain ⟨k2, v2⟩ := p
    by_cases hk : k2 = k
    · subst hk
      simp [cacheLookup] at h
      subst h
      exact List.mem_cons_self _ _
    · simp only [cacheLookup, if_neg hk] at h
      exact List.mem_cons_of_mem _ (ih h)

lemma findByCode_mem (code : String) (rows : List (Nat × String)) (i : Nat)
    (h : findByCode code rows = some i) : (i, code) ∈ rows := by
  induction rows with
  | nil => simp [findByCode] at h
  | cons p rest ih =>
    obtain ⟨j, c⟩ := p
    by_cases hc : c = code
    · subst hc
      simp [findByCode] at h
      subst h
      exact List.mem_cons_self _ _
    · simp only [findByCode, if_neg hc] at h
      exact List.mem_cons_of_mem _ (ih h)

lemma findByCode_none (code : String) (rows : List (Nat × String))
    (h : findByCode code rows = none) : code ∉ rows.map Prod.snd := by
  induction rows with
  | nil => simp
  | cons p rest ih =>
    obtain ⟨j, c⟩ := p
    by_cases hc : c = code
    · simp [findByCode, hc] at h
    · simp only [findByCode, if_neg hc] at h
      simp only [List.map_cons, List.mem_cons]
      rintro (h1 | h2)
      · exact hc h1.symm
      · exact ih h h2

lemma findLemma_none (hw hn : String) (rows : List LemmaRow)
    (h : findLemma hw hn rows = none) :
    (hw, hn) ∉ rows.map (fun r => (r.headword, r.headword_norm)) := by
  induction rows with
  | nil => simp
  | cons r rest ih =>
    by_cases hc : r.headword = hw ∧ r.headword_norm = hn
    · simp [findLemma, hc] at h
    · simp only [findLemma, if_neg hc] at h
      simp only [List.map_cons, List.mem_cons]
      rintro (h1 | h2)
      · exact hc ⟨(congrArg Prod.fst h1).symm, (congrArg Prod.snd h1).symm⟩
      · exact ih h h2

end Oraia

namespace Oraia

/-! ## Shape lemmas for the entity resolver -/

lemma findLemma_mem (hw hn : String) (rows : List LemmaRow) (i : Nat)
    (h : findLemma hw hn rows = some i) :
    (hw, hn) ∈ rows.map (fun r => (r.headword, r.headword_norm)) := by
  induction rows with
  | nil => simp [findLemma] at h
  | cons r rest ih =>
    by_cases hc : r.headword = hw ∧ r.headword_norm = hn
    · simp only [List.map_cons, List.mem_cons]
      exact Or.inl (by rw [hc.1, hc.2])
    · simp only [findLemma, if_neg hc] at h
      exact List.mem_cons_of_mem _ (ih h)

lemma ensure_pos_shape (st : ImportState) (c : String) :
    ∃ posT cacheT,
      (ensure_pos st c).2 =
        { st with db := { st.db with pos := st.db.pos ++ posT }
                  posCache := st.posCache ++ cacheT } ∧
      (posT = [] ∨ posT = [(st.db.pos.length + 1, c)]) ∧
      (∀ p ∈ cacheT, p.1 = c) ∧
      (posCacheOk st → c ∈ (st.db.pos ++ posT).map Prod.snd) ∧
      (c ∈ posCodes st.db → posT = []) := by
  cases h1 : cacheLookup c st.posCache with
  | some i =>
    refine ⟨[], [], ?_, Or.inl rfl, by simp, ?_, fun _ => rfl⟩
    · simp only [ensure_pos, h1, List.append_nil]
    · intro hok
      have := hok _ (cacheLookup_mem c st.posCache i h1)
      simpa [posCodes] using this
  | none =>
    cases h2 : findByCode c st.db.pos with
    | some i =>
      refine ⟨[], [(c, i)], ?_, Or.inl rfl, by simp, ?_, fun _ => rfl⟩
      · simp only [ensure_pos, h1, h2, List.append_nil]
      · intro _
        have := findByCode_mem c st.db.pos i h2
        simp only [List.append_nil, List.mem_map]
        exact ⟨(i, c), this, rfl⟩
    | none =>
      refine ⟨[(st.db.pos.length + 1, c)], [(c, st.db.pos.length + 1)], ?_, Or.inr rfl,
        by simp, ?_, ?_⟩
      · simp only [ensure_pos, h1, h2]
      · intro _
        simp
      · intro hmem
        exact absurd hmem (findByCode_none c st.db.pos h2)

lemma ensure_dialect_shape (st : ImportState) (c : String) :
    ∃ dT cacheT,
      (ensure_dialect st c).2 =
        { st with db := { st.db with dialect := st.db.dialect ++ dT }
                  dialectCache := st.dialectCache ++ cacheT } ∧
      (dT = [] ∨ dT = [(st.db.dialect.length + 1, c)]) ∧
      (∀ p ∈ cacheT, p.1 = c) ∧
      (dialectCacheOk st → c ∈ (st.db.dialect ++ dT).map Prod.snd) ∧
      (c ∈ dialectCodes st.db → dT = []) := by
  cases h1 : cacheLookup c st.dialectCache with
  | some i =>
    refine ⟨[], [], ?_, Or.inl rfl, by simp, ?_, fun _ => rfl⟩
    · simp only [ensure_dialect, h1, List.append_nil]
    · intro hok
      have := hok _ (cacheLookup_mem c st.dialectCache i h1)
      simpa [dialectCodes] using this
  | none =>
    cases h2 : findByCode c st.db.dialect with
    | some i =>
      refine ⟨[], [(c, i)], ?_, Or.inl rfl, by simp, ?_, fun _ => rfl⟩
      · simp only [ensure_dialect, h1, h2, List.append_nil]
      · intro _
        have := findByCode_mem c st.db.dialect i h2
        simp only [List.append_nil, List.mem_map]
        exact ⟨(i, c), this, rfl⟩
    | none =>
      refine ⟨[(st.db.dialect.length + 1, c)], [(c, st.db.dialect.length + 1)], ?_, Or.inr rfl,
        by simp, ?_, ?_⟩
      · simp only [ensure_dialect, h1, h2]
      · intro _
        simp
      · intro hmem
        exact absurd hmem (findByCode_none c st.db.dialect h2)

lemma ensure_lemma_shape (st : ImportState) (hw : String) :
    ∃ rowsT cacheT,
      (ensure_lemma st hw).2 =
        { st with db := { st.db with lemmas := st.db.lemmas ++ rowsT }
                  lemmaCache := st.lemmaCache ++ cacheT } ∧
      (rowsT.map (fun r => (r.headword, r.headword_norm)) = [] ∨
        rowsT.map (fun r => (r.headword, r.headword_norm)) = [(hw, normalize hw)]) ∧
      rowsT.length ≤ 1 ∧
      (∀ p ∈ cacheT, p.1 = (hw, normalize hw)) ∧
      (lemmaCacheOk st → (hw, normalize hw) ∈ lemmaKeys { st.db with lemmas := st.db.lemmas ++ rowsT }) ∧
      ((hw, normalize hw) ∈ lemmaKeys st.db → rowsT = []) := by
  cases h1 : cacheLookup (hw, normalize hw) st.lemmaCache with
  | some i =>
    refine ⟨[], [], ?_, Or.inl rfl, by simp, by simp, ?_, fun _ => rfl⟩
    · simp only [ensure_lemma, h1, List.append_nil]
    · intro hok
      have := hok _ (cacheLookup_mem _ st.lemmaCache i h1)
      simpa [lemmaKeys] using this
  | none =>
    cases h2 : findLemma hw (normalize hw) st.db.lemmas with
    | some i =>
      refine ⟨[], [((hw, normalize hw), i)], ?_, Or.inl rfl, by simp, by simp, ?_, fun _ => rfl⟩
      · simp only [ensure_lemma, h1, h2, List.append_nil]
      · intro _
        have := findLemma_mem hw (normalize hw) st.db.lemmas i h2
        simpa [lemmaKeys] using this
    | none =>
      refine ⟨[{ id := st.db.lemmas.length + 1, headword := hw, headword_norm := normalize hw
                 meta := emptyMeta }], [((hw, normalize hw), st.db.lemmas.length + 1)],
        ?_, Or.inr (by simp), by simp, by simp, ?_, ?_⟩
      · simp only [ensure_lemma, h1, h2]
      · intro _
        simp [lemmaKeys]
      · intro hmem
        exact absurd hmem (findLemma_none hw (normalize hw) st.db.lemmas h2)

end Oraia

namespace Oraia

/-! ## Frame lemmas for the row-writing operations -/

lemma update_meta_db (db : DB) (i : Nat) (m : LemmaMeta) :
    (update_lemma_metadata db i m).pos = db.pos ∧
    (update_lemma_metadata db i m).dialect = db.dialect ∧
    (update_lemma_metadata db i m).sense = db.sense ∧
    (update_lemma_metadata db i m).form = db.form ∧
    (update_lemma_metadata db i m).lemma_pos = db.lemma_pos ∧
    lemmaKeys (update_lemma_metadata db i m) = lemmaKeys db ∧
    (update_lemma_metadata db i m).lemmas.length = db.lemmas.length := by
  by_cases hm : metaAllNone m = true
  · simp [update_lemma_metadata, hm]
  · have hfun : ((fun r : LemmaRow => (r.headword, r.headword_norm)) ∘
        (fun r : LemmaRow => if r.id = i then { r with meta := coalesceMeta m r.meta } else r)) =
        fun r : LemmaRow => (r.headword, r.headword_norm) := by
      funext r
      by_cases hr : r.id = i <;> simp [Function.comp, hr]
    unfold update_lemma_metadata
    rw [if_neg hm]
    refine ⟨rfl, rfl, rfl, rfl, rfl, ?_, by simp⟩
    unfold lemmaKeys
    rw [show ({ db with lemmas := db.lemmas.map (fun r =>
        if r.id = i then { r with meta := coalesceMeta m r.meta } else r) } : DB).lemmas =
        db.lemmas.map (fun r =>
        if r.id = i then { r with meta := coalesceMeta m r.meta } else r) from rfl]
    rw [List.map_map, hfun]

lemma insertLemmaPos_db (db : DB) (lid pid : Nat) :
    (insertLemmaPos db lid pid).pos = db.pos ∧
    (insertLemmaPos db lid pid).dialect = db.dialect ∧
    (insertLemmaPos db lid pid).sense = db.sense ∧
    (insertLemmaPos db lid pid).form = db.form ∧
    (insertLemmaPos db lid pid).lemmas = db.lemmas := by
  unfold insertLemmaPos
  split <;> simp

lemma senseRowsAux_length (lid pid : Nat) (senses : List SenseJ) :
    ∀ idx, (senseRowsAux lid pid idx senses).length = senses.length := by
  induction senses with
  | nil => intro idx; rfl
  | cons s rest ih => intro idx; simp [senseRowsAux, ih]

lemma senseRowsAux_get (lid pid : Nat) (senses : List SenseJ) :
    ∀ idx i s, senses[i]? = some s →
      (senseRowsAux lid pid idx senses)[i]? =
        some ({ lemma_id := lid, pos_id := pid, gloss := (extract_gloss s).1
                definition := (extract_gloss s).2, sense_order := idx + i } : SenseRow) := by
  induction senses with
  | nil => intro idx i s h; simp at h
  | cons t rest ih =>
    intro idx i s h
    cases i with
    | zero =>
      simp at h
      subst h
      simp [senseRowsAux]
    | succ j =>
      simp at h
      have := ih (idx + 1) j s h
      simpa [senseRowsAux, Nat.add_assoc, Nat.add_comm 1 j] using this

/-! ## Shape lemma for one admitted form insertion -/

lemma insertForm_shape (lid pid : Nat) (pt gc : Option String) (st : ImportState) (fe : FormEntry) :
    ∃ dT dcT,
      (insertForm lid pid pt gc st fe).db.pos = st.db.pos ∧
      (insertForm lid pid pt gc st fe).db.lemmas = st.db.lemmas ∧
      (insertForm lid pid pt gc st fe).db.lemma_pos = st.db.lemma_pos ∧
      (insertForm lid pid pt gc st fe).db.sense = st.db.sense ∧
      (insertForm lid pid pt gc st fe).db.dialect = st.db.dialect ++ dT ∧
      (insertForm lid pid pt gc st fe).db.form.length = st.db.form.length + 1 ∧
      (insertForm lid pid pt gc st fe).posCache = st.posCache ∧
      (insertForm lid pid pt gc st fe).lemmaCache = st.lemmaCache ∧
      (insertForm lid pid pt gc st fe).dialectCache = st.dialectCache ++ dcT ∧
      (insertForm lid pid pt gc st fe).inserted = st.inserted ∧
      skipTally (insertForm lid pid pt gc st fe) = skipTally st ∧
      (∀ p ∈ dcT, (parse_tags fe.tags).dialect = some p.1) ∧
      (dialectCacheOk st → ∀ d, (parse_tags fe.tags).dialect = some d →
        d ∈ (st.db.dialect ++ dT).map Prod.snd) ∧
      ((∀ d, (parse_tags fe.tags).dialect = some d → d ∈ dialectCodes st.db) → dT = []) := by
  cases hd : (parse_tags fe.tags).dialect with
  | none =>
    refine ⟨[], [], ?_, ?_, ?_, ?_, ?_, ?_, ?_, ?_, ?_, ?_, ?_, ?_, ?_, fun _ => rfl⟩ <;>
      simp [insertForm, hd, skipTally]
  | some d =>
    obtain ⟨dT, dcT, heq, hcases, hkeys, hcov, hstab⟩ := ensure_dialect_shape st d
    refine ⟨dT, dcT, ?_, ?_, ?_, ?_, ?_, ?_, ?_, ?_, ?_, ?_, ?_, ?_, ?_, ?_⟩
    · simp [insertForm, hd, heq]
    · simp [insertForm, hd, heq]
    · simp [insertForm, hd, heq]
    · simp [insertForm, hd, heq]
    · simp [insertForm, hd, heq]
    · simp [insertForm, hd, heq]
    · simp [insertForm, hd, heq]
    · simp [insertForm, hd, heq]
    · simp [insertForm, hd, heq]
    · simp [insertForm, hd, heq]
    · simp [insertForm, hd, heq, skipTally]
    · intro p hp
      rw [hkeys p hp]
    · intro hok d2 hd2
      injection hd2 with h3
      subst h3
      exact hcov hok
    · intro hall
      exact hstab (hall d rfl)

end Oraia

namespace Oraia

/-! ## The form loop -/

lemma runForms_shape (lid pid : Nat) (pt gc : Option String) :
    ∀ (fes : List FormEntry) (st : ImportState),
      ∃ dT dcT,
        (runForms lid pid pt gc st fes).db.pos = st.db.pos ∧
        (runForms lid pid pt gc st fes).db.lemmas = st.db.lemmas ∧
        (runForms lid pid pt gc st fes).db.lemma_pos = st.db.lemma_pos ∧
        (runForms lid pid pt gc st fes).db.sense = st.db.sense ∧
        (runForms lid pid pt gc st fes).db.dialect = st.db.dialect ++ dT ∧
        (runForms lid pid pt gc st fes).db.form.length =
          st.db.form.length + (fes.filter (fun fe => should_keep_form fe)).length ∧
        (runForms lid pid pt gc st fes).posCache = st.posCache ∧
        (runForms lid pid pt gc st fes).lemmaCache = st.lemmaCache ∧
        (runForms lid pid pt gc st fes).dialectCache = st.dialectCache ++ dcT ∧
        (runForms lid pid pt gc st fes).inserted = st.inserted ∧
        skipTally (runForms lid pid pt gc st fes) = skipTally st := by
  intro fes
  induction fes with
  | nil =>
    intro st
    exact ⟨[], [], rfl, rfl, rfl, rfl, by simp [runForms], by simp [runForms], rfl, rfl,
      by simp [runForms], rfl, rfl⟩
  | cons fe rest ih =>
    intro st
    by_cases hk : should_keep_form fe = true
    · obtain ⟨dT1, dcT1, p1, l1, lp1, s1, d1, f1, pc1, lc1, dc1, i1, t1, _, _, _⟩ :=
        insertForm_shape lid pid pt gc st fe
      obtain ⟨dT2, dcT2, p2, l2, lp2, s2, d2, f2, pc2, lc2, dc2, i2, t2⟩ :=
        ih (insertForm lid pid pt gc st fe)
      have hrun : runForms lid pid pt gc st (fe :: rest) =
          runForms lid pid pt gc (insertForm lid pid pt gc st fe) rest := by
        simp [runForms, hk]
      refine ⟨dT1 ++ dT2, dcT1 ++ dcT2, ?_, ?_, ?_, ?_, ?_, ?_, ?_, ?_, ?_, ?_, ?_⟩ <;>
        rw [hrun]
      · rw [p2, p1]
      · rw [l2, l1]
      · rw [lp2, lp1]
      · rw [s2, s1]
      · rw [d2, d1, List.append_assoc]
      · rw [f2, f1]
        simp [List.filter_cons, hk]
        omega
      · rw [pc2, pc1]
      · rw [lc2, lc1]
      · rw [dc2, dc1, List.append_assoc]
      · rw [i2, i1]
      · rw [t2, t1]
    · obtain ⟨dT, dcT, hrest⟩ := ih st
      refine ⟨dT, dcT, ?_⟩
      have hrun : runForms lid pid pt gc st (fe :: rest) = runForms lid pid pt gc st rest := by
        simp [runForms, hk]
      rw [hrun]
      simpa [List.filter_cons, hk] using hrest

lemma runForms_cacheOk (lid pid : Nat) (pt gc : Option String) :
    ∀ (fes : List FormEntry) (st : ImportState), cachesOk st →
      cachesOk (runForms lid pid pt gc st fes) ∧
      (∀ fe ∈ fes, should_keep_form fe = true →
        ∀ d, (parse_tags fe.tags).dialect = some d →
          d ∈ dialectCodes (runForms lid pid pt gc st fes).db) := by
  intro fes
  induction fes with
  | nil =>
    intro st hok
    exact ⟨hok, by simp⟩
  | cons fe rest ih =>
    intro st hok
    by_cases hk : should_keep_form fe = true
    · obtain ⟨dT1, dcT1, p1, l1, lp1, s1, d1, f1, pc1, lc1, dc1, i1, t1, hnew, hcov, hstab⟩ :=
        insertForm_shape lid pid pt gc st fe
      have hok1 : cachesOk (insertForm lid pid pt gc st fe) := by
        refine ⟨?_, ?_, ?_⟩
        · intro p hp
          rw [pc1] at hp
          have := hok.1 p hp
          simpa [posCodes, p1] using this
        · intro p hp
          rw [dc1] at hp
          rcases List.mem_append.mp hp with hold | hnew2
          · have := hok.2.1 p hold
            simp only [dialectCodes, d1, List.map_append, List.mem_append]
            exact Or.inl this
          · have hd := hnew p hnew2
            have := hcov hok.2.1 p.1 hd
            simpa [dialectCodes, d1] using this
        · intro p hp
          rw [lc1] at hp
          have := hok.2.2 p hp
          simpa [lemmaKeys, l1] using this
      obtain ⟨hok2, hcov2⟩ := ih (insertForm lid pid pt gc st fe) hok1
      have hrun : runForms lid pid pt gc st (fe :: rest) =
          runForms lid pid pt gc (insertForm lid pid pt gc st fe) rest := by
        simp [runForms, hk]
      rw [hrun]
      refine ⟨hok2, ?_⟩
      intro fe2 hfe2 hk2 d hd
      rcases List.mem_cons.mp hfe2 with heq | hmem
      · rw [heq] at hd
        have hd1 : d ∈ dialectCodes (insertForm lid pid pt gc st fe).db := by
          have := hcov hok.2.1 d hd
          simpa [dialectCodes, d1] using this
        obtain ⟨dT2, dcT2, _, _, _, _, d2, _⟩ :=
          runForms_shape lid pid pt gc rest (insertForm lid pid pt gc st fe)
        simp only [dialectCodes, d2, List.map_append, List.mem_append]
        exact Or.inl (by simpa [dialectCodes] using hd1)
      · exact hcov2 fe2 hmem hk2 d hd
    · have hrun : runForms lid pid pt gc st (fe :: rest) = runForms lid pid pt gc st rest := by
        simp [runForms, hk]
      rw [hrun]
      obtain ⟨hok2, hcov2⟩ := ih st hok
      refine ⟨hok2, ?_⟩
      intro fe2 hfe2 hk2 d hd
      rcases List.mem_cons.mp hfe2 with heq | hmem
      · rw [heq] at hk2
        exact absurd hk2 hk
      · exact hcov2 fe2 hmem hk2 d hd

lemma runForms_stable (lid pid : Nat) (pt gc : Option String) :
    ∀ (fes : List FormEntry) (st : ImportState), dialectCacheOk st →
      (∀ fe ∈ fes, should_keep_form fe = true →
        ∀ d, (parse_tags fe.tags).dialect = some d → d ∈ dialectCodes st.db) →
      (runForms lid pid pt gc st fes).db.dialect = st.db.dialect ∧
      dialectCacheOk (runForms lid pid pt gc st fes) := by
  intro fes
  induction fes with
  | nil =>
    intro st hok _
    exact ⟨rfl, hok⟩
  | cons fe rest ih =>
    intro st hok hneed
    by_cases hk : should_keep_form fe = true
    · obtain ⟨dT1, dcT1, p1, l1, lp1, s1, d1, f1, pc1, lc1, dc1, i1, t1, hnew, hcov, hstab⟩ :=
        insertForm_shape lid pid pt gc st fe
      have hdT : dT1 = [] := by
        apply hstab
        intro d hd
        exact hneed fe (List.mem_cons_self _ _) hk d hd
      have hdia : (insertForm lid pid pt gc st fe).db.dialect = st.db.dialect := by
        rw [d1, hdT, List.append_nil]
      have hok1 : dialectCacheOk (insertForm lid pid pt gc st fe) := by
        intro p hp
        rw [dc1] at hp
        rcases List.mem_append.mp hp with hold | hnew2
        · have := hok p hold
          simpa [dialectCodes, hdia] using this
        · have hd := hnew p hnew2
          have := hneed fe (List.mem_cons_self _ _) hk p.1 hd
          simpa [dialectCodes, hdia] using this
      have hrun : runForms lid pid pt gc st (fe :: rest) =
          runForms lid pid pt gc (insertForm lid pid pt gc st fe) rest := by
        simp [runForms, hk]
      rw [hrun]
      have hneed1 : ∀ fe2 ∈ rest, should_keep_form fe2 = true →
          ∀ d, (parse_tags fe2.tags).dialect = some d →
            d ∈ dialectCodes (insertForm lid pid pt gc st fe).db := by
        intro fe2 hmem hk2 d hd
        have := hneed fe2 (List.mem_cons_of_mem _ hmem) hk2 d hd
        simpa [dialectCodes, hdia] using this
      obtain ⟨hd2, hok2⟩ := ih (insertForm lid pid pt gc st fe) hok1 hneed1
      rw [hd2, hdia]
      exact ⟨rfl, hok2⟩
    · have hrun : runForms lid pid pt gc st (fe :: rest) = runForms lid pid pt gc st rest := by
        simp [runForms, hk]
      rw [hrun]
      exact ih st hok (fun fe2 hmem => hneed fe2 (List.mem_cons_of_mem _ hmem))

end Oraia

namespace Oraia

/-! ## Bridging lemmas for the per-entry dialect needs -/

lemma needDialects_mem (e : Entry) (d : String) (hd : d ∈ needDialects e) :
    ∃ fe ∈ e.forms, should_keep_form fe = true ∧ (parse_tags fe.tags).dialect = some d := by
  unfold needDialects at hd
  obtain ⟨fe, hfe, hdd⟩ := List.mem_filterMap.mp hd
  obtain ⟨hmem, hkeep⟩ := List.mem_filter.mp hfe
  exact ⟨fe, hmem, by simpa using hkeep, hdd⟩

lemma mem_needDialects (e : Entry) (fe : FormEntry) (d : String) (hmem : fe ∈ e.forms)
    (hk : should_keep_form fe = true) (hd : (parse_tags fe.tags).dialect = some d) :
    d ∈ needDialects e := by
  unfold needDialects
  exact List.mem_filterMap.mpr ⟨fe, List.mem_filter.mpr ⟨hmem, by simpa using hk⟩, hd⟩

/-! ## The per-entry pipeline -/

lemma processAccepted_shape (st : ImportState) (e : Entry) :
    ∃ lid pid,
      (processAccepted st e).db.sense = st.db.sense ++ senseRows lid pid e.senses ∧
      (processAccepted st e).db.form.length = st.db.form.length + keptForms e ∧
      (processAccepted st e).inserted = st.inserted + 1 ∧
      skipTally (processAccepted st e) = skipTally st ∧
      (∃ pT2, (processAccepted st e).db.pos = st.db.pos ++ pT2) ∧
      (∃ dT2, (processAccepted st e).db.dialect = st.db.dialect ++ dT2) ∧
      (∃ lT2, lemmaKeys (processAccepted st e).db = lemmaKeys st.db ++ lT2) ∧
      (cachesOk st →
        cachesOk (processAccepted st e) ∧
        needPos e ∈ posCodes (processAccepted st e).db ∧
        needKey e ∈ lemmaKeys (processAccepted st e).db ∧
        (∀ d ∈ needDialects e, d ∈ dialectCodes (processAccepted st e).db)) ∧
      (cachesOk st → needPos e ∈ posCodes st.db → needKey e ∈ lemmaKeys st.db →
        (∀ d ∈ needDialects e, d ∈ dialectCodes st.db) →
        (processAccepted st e).db.pos = st.db.pos ∧
        (processAccepted st e).db.dialect = st.db.dialect ∧
        lemmaKeys (processAccepted st e).db = lemmaKeys st.db ∧
        (processAccepted st e).db.lemmas.length = st.db.lemmas.length ∧
        cachesOk (processAccepted st e)) := by
  classical
  set pc := strStrip (e.pos.getD "") with hpc
  set hw := e.word.getD "" with hhw
  obtain ⟨pT, pcT, hA, hpcases, hpkeys, hpcov, hpstab⟩ := ensure_pos_shape st pc
  set pid := (ensure_pos st pc).1 with hpid
  set A := (ensure_pos st pc).2 with hAdef
  obtain ⟨lrT, lcT, hB, hlcases, hllen, hlckeys, hlcov, hlstab⟩ := ensure_lemma_shape A hw
  set lid := (ensure_lemma A hw).1 with hlid
  set B := (ensure_lemma A hw).2 with hBdef
  -- stage-A and stage-B projections
  have hB_pos : B.db.pos = st.db.pos ++ pT := by rw [hB, hA]
  have hB_dialect : B.db.dialect = st.db.dialect := by rw [hB, hA]
  have hB_sense : B.db.sense = st.db.sense := by rw [hB, hA]
  have hB_form : B.db.form = st.db.form := by rw [hB, hA]
  have hB_lemmas : B.db.lemmas = st.db.lemmas ++ lrT := by rw [hB, hA]
  have hB_posCache : B.posCache = st.posCache ++ pcT := by rw [hB, hA]
  have hB_dialectCache : B.dialectCache = st.dialectCache := by rw [hB, hA]
  have hB_lemmaCache : B.lemmaCache = st.lemmaCache ++ lcT := by rw [hB, hA]
  have hB_inserted : B.inserted = st.inserted := by rw [hB, hA]
  have hB_tally : skipTally B = skipTally st := by
    rw [hB, hA]
    rfl
  have hB_keys : lemmaKeys B.db = lemmaKeys st.db ++ lrT.map (fun r => (r.headword, r.headword_norm)) := by
    unfold lemmaKeys
    rw [hB_lemmas, List.map_append]
  -- the tail of the pipeline
  set XC := update_lemma_metadata B.db lid e.meta with hXC
  obtain ⟨hXC_pos, hXC_dialect, hXC_sense, hXC_form, hXC_lp, hXC_keys, hXC_len⟩ :=
    update_meta_db B.db lid e.meta
  set XD := insertLemmaPos XC lid pid with hXDdef
  obtain ⟨hXD_pos, hXD_dialect, hXD_sense, hXD_form, hXD_lemmas⟩ := insertLemmaPos_db XC lid pid
  have hXD_keys : lemmaKeys XD = lemmaKeys XC := by
    unfold lemmaKeys
    rw [hXD_lemmas]
  set E := ({ B with db := { XD with sense := XD.sense ++ senseRows lid pid e.senses } } :
    ImportState) with hEdef
  set pth := (if pc = "pron" then extract_pronoun_type e else none) with hpth
  set gch := (if pc = "prep" then extract_governs_case e else none) with hgch
  have hPA : processAccepted st e =
      { runForms lid pid pth gch E e.forms with
        inserted := (runForms lid pid pth gch E e.forms).inserted + 1 } := rfl
  obtain ⟨fdT, fdcT, hf_pos, hf_lemmas, hf_lp, hf_sense, hf_dialect, hf_formlen, hf_posCache,
    hf_lemmaCache, hf_dialectCache, hf_inserted, hf_tally⟩ :=
    runForms_shape lid pid pth gch e.forms E
  -- E projections
  have hE_pos : E.db.pos = st.db.pos ++ pT := by
    rw [hEdef]
    show XD.pos = _
    rw [hXD_pos, hXC_pos, hB_pos]
  have hE_dialect : E.db.dialect = st.db.dialect := by
    rw [hEdef]
    show XD.dialect = _
    rw [hXD_dialect, hXC_dialect, hB_dialect]
  have hE_sense : E.db.sense = st.db.sense ++ senseRows lid pid e.senses := by
    rw [hEdef]
    show XD.sense ++ _ = _
    rw [hXD_sense, hXC_sense, hB_sense]
  have hE_form : E.db.form = st.db.form := by
    rw [hEdef]
    show XD.form = _
    rw [hXD_form, hXC_form, hB_form]
  have hE_keys : lemmaKeys E.db =
      lemmaKeys st.db ++ lrT.map (fun r => (r.headword, r.headword_norm)) := by
    have : lemmaKeys E.db = lemmaKeys XD := by
      rw [hEdef]
      unfold lemmaKeys
      rfl
    rw [this, hXD_keys, hXC_keys, hB_keys]
  have hE_lemmas_len : E.db.lemmas.length = st.db.lemmas.length + lrT.length := by
    have : E.db.lemmas = XD.lemmas := by rw [hEdef]
    rw [this, hXD_lemmas, hXC_len, hB_lemmas, List.length_append]
  have hE_posCache : E.posCache = st.posCache ++ pcT := by
    rw [hEdef]
    show B.posCache = _
    exact hB_posCache
  have hE_dialectCache : E.dialectCache = st.dialectCache := by
    rw [hEdef]
    show B.dialectCache = _
    exact hB_dialectCache
  have hE_lemmaCache : E.lemmaCache = st.lemmaCache ++ lcT := by
    rw [hEdef]
    show B.lemmaCache = _
    exact hB_lemmaCache
  have hE_inserted : E.inserted = st.inserted := by
    rw [hEdef]
    show B.inserted = _
    exact hB_inserted
  have hE_tally : skipTally E = skipTally st := by
    rw [hEdef]
    show skipTally B = _
    exact hB_tally
  have hA_lemmaCache : A.lemmaCache = st.lemmaCache := by rw [hA]
  have hA_keys : lemmaKeys A.db = lemmaKeys st.db := by
    rw [hA]
    rfl
  have hokA_of : cachesOk st → lemmaCacheOk A := by
    intro hok q hq
    rw [hA_lemmaCache] at hq
    rw [hA_keys]
    exact hok.2.2 q hq
  have hlcov2 : lemmaCacheOk A →
      (hw, normalize hw) ∈ lemmaKeys st.db ++ lrT.map (fun r => (r.headword, r.headword_norm)) := by
    intro hokA
    have h0 := hlcov hokA
    have h1 : lemmaKeys ({ A.db with lemmas := A.db.lemmas ++ lrT } : DB) =
        lemmaKeys A.db ++ lrT.map (fun r => (r.headword, r.headword_norm)) := by
      unfold lemmaKeys
      simp
    rw [h1, hA_keys] at h0
    exact h0
  have hFkeys : lemmaKeys (runForms lid pid pth gch E e.forms).db = lemmaKeys E.db := by
    unfold lemmaKeys
    rw [hf_lemmas]
  have hokE_of : cachesOk st → cachesOk E := by
    intro hok
    refine ⟨?_, ?_, ?_⟩
    · intro p hp
      rw [hE_posCache] at hp
      show p.1 ∈ posCodes E.db
      unfold posCodes
      rw [hE_pos]
      rcases List.mem_append.mp hp with hold | hnewp
      · have := hok.1 p hold
        simp only [List.map_append, List.mem_append]
        exact Or.inl this
      · rw [hpkeys p hnewp]
        exact hpcov hok.1
    · intro p hp
      rw [hE_dialectCache] at hp
      show p.1 ∈ dialectCodes E.db
      unfold dialectCodes
      rw [hE_dialect]
      exact hok.2.1 p hp
    · intro p hp
      rw [hE_lemmaCache] at hp
      show p.1 ∈ lemmaKeys E.db
      rw [hE_keys]
      rcases List.mem_append.mp hp with hold | hnewp
      · exact List.mem_append.mpr (Or.inl (hok.2.2 p hold))
      · rw [hlckeys p hnewp]
        exact hlcov2 (hokA_of hok)
  refine ⟨lid, pid, ?_, ?_, ?_, ?_, ?_, ?_, ?_, ?_, ?_⟩
  · rw [hPA]
    show (runForms lid pid pth gch E e.forms).db.sense = _
    rw [hf_sense, hE_sense]
  · rw [hPA]
    show (runForms lid pid pth gch E e.forms).db.form.length = _
    rw [hf_formlen, hE_form]
    rfl
  · rw [hPA]
    show (runForms lid pid pth gch E e.forms).inserted + 1 = _
    rw [hf_inserted, hE_inserted]
  · rw [hPA]
    show skipTally (runForms lid pid pth gch E e.forms) = _
    rw [hf_tally, hE_tally]
  · refine ⟨pT, ?_⟩
    rw [hPA]
    show (runForms lid pid pth gch E e.forms).db.pos = _
    rw [hf_pos, hE_pos]
  · refine ⟨fdT, ?_⟩
    rw [hPA]
    show (runForms lid pid pth gch E e.forms).db.dialect = _
    rw [hf_dialect, hE_dialect]
  · refine ⟨lrT.map (fun r => (r.headword, r.headword_norm)), ?_⟩
    rw [hPA]
    show lemmaKeys (runForms lid pid pth gch E e.forms).db = _
    rw [hFkeys, hE_keys]
  · intro hok
    obtain ⟨hokF, hcovF⟩ := runForms_cacheOk lid pid pth gch e.forms E (hokE_of hok)
    have hfinal : cachesOk (processAccepted st e) := by
      rw [hPA]
      exact hokF
    refine ⟨hfinal, ?_, ?_, ?_⟩
    · show needPos e ∈ posCodes (processAccepted st e).db
      rw [hPA]
      show needPos e ∈ posCodes (runForms lid pid pth gch E e.forms).db
      unfold posCodes
      rw [hf_pos, hE_pos]
      exact hpcov hok.1
    · show needKey e ∈ lemmaKeys (processAccepted st e).db
      rw [hPA]
      show needKey e ∈ lemmaKeys (runForms lid pid pth gch E e.forms).db
      rw [hFkeys, hE_keys]
      exact hlcov2 (hokA_of hok)
    · intro d hd
      obtain ⟨fe, hmem, hk, hdd⟩ := needDialects_mem e d hd
      have hdF := hcovF fe hmem hk d hdd
      show d ∈ dialectCodes (processAccepted st e).db
      rw [hPA]
      exact hdF
  · intro hok hpos hkey hdia
    have hpT : pT = [] := hpstab hpos
    have hlrT : lrT = [] := by
      apply hlstab
      rw [hA_keys]
      exact hkey
    have hneedE : ∀ fe ∈ e.forms, should_keep_form fe = true →
        ∀ d, (parse_tags fe.tags).dialect = some d → d ∈ dialectCodes E.db := by
      intro fe hmem hk d hdd
      show d ∈ dialectCodes E.db
      unfold dialectCodes
      rw [hE_dialect]
      exact hdia d (mem_needDialects e fe d hmem hk hdd)
    obtain ⟨hFdia, hFdcache⟩ :=
      runForms_stable lid pid pth gch e.forms E (hokE_of hok).2.1 hneedE
    have hposF : (processAccepted st e).db.pos = st.db.pos := by
      rw [hPA]
      show (runForms lid pid pth gch E e.forms).db.pos = _
      rw [hf_pos, hE_pos, hpT, List.append_nil]
    have hdiaF : (processAccepted st e).db.dialect = st.db.dialect := by
      rw [hPA]
      show (runForms lid pid pth gch E e.forms).db.dialect = _
      rw [hFdia, hE_dialect]
    have hkeysF : lemmaKeys (processAccepted st e).db = lemmaKeys st.db := by
      rw [hPA]
      show lemmaKeys (runForms lid pid pth gch E e.forms).db = _
      rw [hFkeys, hE_keys, hlrT]
      simp
    have hpcF : (processAccepted st e).posCache = st.posCache ++ pcT := by
      have h0 : (processAccepted st e).posCache =
          (runForms lid pid pth gch E e.forms).posCache := by
        rw [hPA]
      rw [h0, hf_posCache, hE_posCache]
    have hlcF : (processAccepted st e).lemmaCache = st.lemmaCache ++ lcT := by
      have h0 : (processAccepted st e).lemmaCache =
          (runForms lid pid pth gch E e.forms).lemmaCache := by
        rw [hPA]
      rw [h0, hf_lemmaCache, hE_lemmaCache]
    refine ⟨hposF, hdiaF, hkeysF, ?_, ?_, ?_, ?_⟩
    · rw [hPA]
      show (runForms lid pid pth gch E e.forms).db.lemmas.length = _
      rw [hf_lemmas]
      rw [hE_lemmas_len, hlrT]
      simp
    · intro p hp
      rw [hpcF] at hp
      show p.1 ∈ posCodes (processAccepted st e).db
      unfold posCodes
      rw [hposF]
      rcases List.mem_append.mp hp with hold | hnewp
      · exact hok.1 p hold
      · rw [hpkeys p hnewp]
        exact hpos
    · intro p hp
      have hdc : (processAccepted st e).dialectCache =
          (runForms lid pid pth gch E e.forms).dialectCache := by
        rw [hPA]
      rw [hdc] at hp
      have h1 := hFdcache p hp
      have hdb : dialectCodes (processAccepted st e).db =
          dialectCodes (runForms lid pid pth gch E e.forms).db := by
        rw [hPA]
      show p.1 ∈ dialectCodes (processAccepted st e).db
      rw [hdb]
      exact h1
    · intro p hp
      rw [hlcF] at hp
      show p.1 ∈ lemmaKeys (processAccepted st e).db
      rw [hkeysF]
      rcases List.mem_append.mp hp with hold | hnewp
      · exact hok.2.2 p hold
      · rw [hlckeys p hnewp]
        exact hkey

end Oraia

namespace Oraia

/-! ## Per-line behaviour of the driver -/

lemma processEntry_eq_acc (allowed : List String) (st : ImportState) (e : Entry)
    (h : Accepts allowed e) : processEntry allowed st e = processAccepted st e := by
  obtain ⟨h1, h2, h3, h4⟩ := h
  simp only [processEntry]
  rw [if_neg (by simp [h1]), if_neg h2, if_neg (not_not_intro h3), if_neg h4]

lemma processEntry_eq_skip (allowed : List String) (st : ImportState) (e : Entry)
    (h : ¬ Accepts allowed e) :
    (processEntry allowed st e).db = st.db ∧
    (processEntry allowed st e).posCache = st.posCache ∧
    (processEntry allowed st e).dialectCache = st.dialectCache ∧
    (processEntry allowed st e).lemmaCache = st.lemmaCache ∧
    (processEntry allowed st e).inserted = st.inserted ∧
    skipTally (processEntry allowed st e) = skipTally st + 1 := by
  simp only [processEntry]
  by_cases h1 : e.lang_code ≠ some "grc"
  · rw [if_pos h1]
    refine ⟨rfl, rfl, rfl, rfl, rfl, ?_⟩
    simp [skipTally]
    omega
  · rw [if_neg h1]
    by_cases h2 : strStrip (e.pos.getD "") = ""
    · rw [if_pos h2]
      refine ⟨rfl, rfl, rfl, rfl, rfl, ?_⟩
      simp [skipTally]
      omega
    · rw [if_neg h2]
      by_cases h3 : strStrip (e.pos.getD "") ∉ allowed
      · rw [if_pos h3]
        refine ⟨rfl, rfl, rfl, rfl, rfl, ?_⟩
        simp [skipTally]
        omega
      · rw [if_neg h3]
        by_cases h4 : e.word.getD "" = ""
        · rw [if_pos h4]
          refine ⟨rfl, rfl, rfl, rfl, rfl, ?_⟩
          simp [skipTally]
          omega
        · exact absurd ⟨not_not.mp h1, h2, not_not.mp h3, h4⟩ h

/-- Each non-blank line bumps the combined skip-or-accept tally by exactly
one; blank lines change nothing. -/
lemma processLine_tally (allowed : List String) (st : ImportState) (l : Line) :
    skipTally (processLine allowed st l) + (processLine allowed st l).inserted =
      skipTally st + st.inserted + (if isBlank l then 0 else 1) := by
  cases l with
  | blank => simp [processLine, isBlank]
  | malformed =>
    show skipTally { st with json_decode_error := st.json_decode_error + 1 } +
      st.inserted = skipTally st + st.inserted + 1
    simp only [skipTally]
    omega
  | parsed e =>
    show skipTally (processEntry allowed st e) + (processEntry allowed st e).inserted =
      skipTally st + st.inserted + 1
    by_cases h : Accepts allowed e
    · rw [processEntry_eq_acc allowed st e h]
      obtain ⟨lid, pid, _, _, hins, htal, _, _, _, _, _⟩ := processAccepted_shape st e
      rw [htal, hins]
      omega
    · obtain ⟨_, _, _, _, hins, htal⟩ := processEntry_eq_skip allowed st e h
      rw [htal, hins]
      omega

lemma runLines_tally (allowed : List String) :
    ∀ (lines : List Line) (st : ImportState),
      skipTally (runLines allowed st lines) + (runLines allowed st lines).inserted =
        skipTally st + st.inserted + countNonBlank lines := by
  intro lines
  induction lines with
  | nil =>
    intro st
    simp [runLines, countNonBlank]
  | cons l rest ih =>
    intro st
    have h1 := processLine_tally allowed st l
    have h2 : countNonBlank (l :: rest) = countNonBlank rest + (if isBlank l then 0 else 1) := by
      cases l <;> simp [countNonBlank, isBlank]
    show skipTally (runLines allowed (processLine allowed st l) rest) +
      (runLines allowed (processLine allowed st l) rest).inserted = _
    rw [ih (processLine allowed st l), h2]
    omega

/-! ## Row counts over a stream -/

lemma runLines_counts (allowed : List String) :
    ∀ (lines : List Line) (st : ImportState),
      (runLines allowed st lines).db.sense.length =
        st.db.sense.length + sumBy (fun e => e.senses.length) (acceptedEntries allowed lines) ∧
      (runLines allowed st lines).db.form.length =
        st.db.form.length + sumBy keptForms (acceptedEntries allowed lines) := by
  intro lines
  induction lines with
  | nil =>
    intro st
    simp [runLines, acceptedEntries, sumBy]
  | cons l rest ih =>
    intro st
    cases l with
    | blank =>
      simpa [runLines, processLine, acceptedEntries] using ih st
    | malformed =>
      have h0 := ih ({ st with json_decode_error := st.json_decode_error + 1 })
      simpa [runLines, processLine, acceptedEntries] using h0
    | parsed e =>
      by_cases h : Accepts allowed e
      · simp only [runLines, processLine, acceptedEntries, if_pos h, sumBy]
        rw [processEntry_eq_acc allowed st e h]
        obtain ⟨hsense, hform⟩ := ih (processAccepted st e)
        obtain ⟨lid, pid, hs, hf, _, _, _, _, _, _, _⟩ := processAccepted_shape st e
        constructor
        · rw [hsense, hs]
          simp [senseRows, senseRowsAux_length]
          omega
        · rw [hform, hf]
          omega
      · simp only [runLines, processLine, acceptedEntries, if_neg h]
        obtain ⟨hdb, _, _, _, _, _⟩ := processEntry_eq_skip allowed st e h
        have := ih (processEntry allowed st e)
        rw [hdb] at this
        exact this

end Oraia

namespace Oraia

/-! ## Coverage: a run leaves every resolved natural key in the store -/

lemma runLines_cover (allowed : List String) :
    ∀ (lines : List Line) (st : ImportState), cachesOk st →
      cachesOk (runLines allowed st lines) ∧
      (∀ c ∈ posCodes st.db, c ∈ posCodes (runLines allowed st lines).db) ∧
      (∀ c ∈ dialectCodes st.db, c ∈ dialectCodes (runLines allowed st lines).db) ∧
      (∀ k ∈ lemmaKeys st.db, k ∈ lemmaKeys (runLines allowed st lines).db) ∧
      (∀ e ∈ acceptedEntries allowed lines,
        needPos e ∈ posCodes (runLines allowed st lines).db ∧
        needKey e ∈ lemmaKeys (runLines allowed st lines).db ∧
        ∀ d ∈ needDialects e, d ∈ dialectCodes (runLines allowed st lines).db) := by
  intro lines
  induction lines with
  | nil =>
    intro st hok
    exact ⟨hok, fun c hc => hc, fun c hc => hc, fun k hk => hk, by simp [acceptedEntries]⟩
  | cons l rest ih =>
    intro st hok
    cases l with
    | blank =>
      have h0 := ih st hok
      simpa [runLines, processLine, acceptedEntries] using h0
    | malformed =>
      have hok1 : cachesOk ({ st with json_decode_error := st.json_decode_error + 1 }) := hok
      have h0 := ih ({ st with json_decode_error := st.json_decode_error + 1 }) hok1
      simpa [runLines, processLine, acceptedEntries] using h0
    | parsed e =>
      by_cases h : Accepts allowed e
      · have hrun : runLines allowed st (Line.parsed e :: rest) =
            runLines allowed (processAccepted st e) rest := by
          simp [runLines, processLine, processEntry_eq_acc allowed st e h]
        obtain ⟨lid, pid, _, _, _, _, ⟨pT2, hpos⟩, ⟨dT2, hdia⟩, ⟨lT2, hkeys⟩, hcov, _⟩ :=
          processAccepted_shape st e
        obtain ⟨hok1, hneedPos, hneedKey, hneedDia⟩ := hcov hok
        obtain ⟨hok2, hmonoP, hmonoD, hmonoL, hrest⟩ := ih (processAccepted st e) hok1
        have hmonoP0 : ∀ c ∈ posCodes st.db, c ∈ posCodes (processAccepted st e).db := by
          intro c hc
          unfold posCodes at hc ⊢
          rw [hpos]
          simp only [List.map_append, List.mem_append]
          exact Or.inl hc
        have hmonoD0 : ∀ c ∈ dialectCodes st.db, c ∈ dialectCodes (processAccepted st e).db := by
          intro c hc
          unfold dialectCodes at hc ⊢
          rw [hdia]
          simp only [List.map_append, List.mem_append]
          exact Or.inl hc
        have hmonoL0 : ∀ k ∈ lemmaKeys st.db, k ∈ lemmaKeys (processAccepted st e).db := by
          intro k hk
          rw [hkeys]
          exact List.mem_append.mpr (Or.inl hk)
        rw [hrun]
        refine ⟨hok2, ?_, ?_, ?_, ?_⟩
        · exact fun c hc => hmonoP c (hmonoP0 c hc)
        · exact fun c hc => hmonoD c (hmonoD0 c hc)
        · exact fun k hk => hmonoL k (hmonoL0 k hk)
        · intro e2 he2
          have he2' : e2 ∈ acceptedEntries allowed (Line.parsed e :: rest) := he2
          rw [show acceptedEntries allowed (Line.parsed e :: rest) =
              e :: acceptedEntries allowed rest by simp [acceptedEntries, h]] at he2'
          rcases List.mem_cons.mp he2' with heq | hmem
          · subst heq
            exact ⟨hmonoP _ hneedPos, hmonoL _ hneedKey,
              fun d hd => hmonoD d (hneedDia d hd)⟩
          · exact hrest e2 hmem
      · have hrun : runLines allowed st (Line.parsed e :: rest) =
            runLines allowed (processEntry allowed st e) rest := rfl
        obtain ⟨hdb, hpc, hdc, hlc, _, _⟩ := processEntry_eq_skip allowed st e h
        have hok1 : cachesOk (processEntry allowed st e) := by
          refine ⟨?_, ?_, ?_⟩
          · intro p hp
            rw [hpc] at hp
            show p.1 ∈ posCodes (processEntry allowed st e).db
            rw [hdb]
            exact hok.1 p hp
          · intro p hp
            rw [hdc] at hp
            show p.1 ∈ dialectCodes (processEntry allowed st e).db
            rw [hdb]
            exact hok.2.1 p hp
          · intro p hp
            rw [hlc] at hp
            show p.1 ∈ lemmaKeys (processEntry allowed st e).db
            rw [hdb]
            exact hok.2.2 p hp
        obtain ⟨hok2, hmonoP, hmonoD, hmonoL, hrest⟩ := ih (processEntry allowed st e) hok1
        rw [hrun]
        have hacc : acceptedEntries allowed (Line.parsed e :: rest) =
            acceptedEntries allowed rest := by
          simp [acceptedEntries, h]
        refine ⟨hok2, ?_, ?_, ?_, ?_⟩
        · intro c hc
          apply hmonoP
          unfold posCodes
          rw [hdb]
          exact hc
        · intro c hc
          apply hmonoD
          unfold dialectCodes
          rw [hdb]
          exact hc
        · intro k hk
          apply hmonoL
          unfold lemmaKeys
          rw [hdb]
          exact hk
        · intro e2 he2
          rw [hacc] at he2
          exact hrest e2 he2

end Oraia

namespace Oraia

/-! ## Stability: a run whose resolved keys are already stored adds no
entity rows -/

lemma runLines_stable (allowed : List String) :
    ∀ (lines : List Line) (st : ImportState), cachesOk st →
      (∀ e ∈ acceptedEntries allowed lines,
        needPos e ∈ posCodes st.db ∧ needKey e ∈ lemmaKeys st.db ∧
        ∀ d ∈ needDialects e, d ∈ dialectCodes st.db) →
      (runLines allowed st lines).db.pos = st.db.pos ∧
      (runLines allowed st lines).db.dialect = st.db.dialect ∧
      lemmaKeys (runLines allowed st lines).db = lemmaKeys st.db ∧
      (runLines allowed st lines).db.lemmas.length = st.db.lemmas.length := by
  intro lines
  induction lines with
  | nil =>
    intro st _ _
    exact ⟨rfl, rfl, rfl, rfl⟩
  | cons l rest ih =>
    intro st hok hneed
    cases l with
    | blank =>
      have h0 := ih st hok (by
        intro e2 he2
        exact hneed e2 (by simpa [acceptedEntries] using he2))
      simpa [runLines, processLine] using h0
    | malformed =>
      have hok1 : cachesOk ({ st with json_decode_error := st.json_decode_error + 1 }) := hok
      have h0 := ih ({ st with json_decode_error := st.json_decode_error + 1 }) hok1 (by
        intro e2 he2
        exact hneed e2 (by simpa [acceptedEntries] using he2))
      simpa [runLines, processLine] using h0
    | parsed e =>
      by_cases h : Accepts allowed e
      · have hacc : acceptedEntries allowed (Line.parsed e :: rest) =
            e :: acceptedEntries allowed rest := by
          simp [acceptedEntries, h]
        have hneedE := hneed e (by
          rw [hacc]
          exact List.mem_cons_self _ _)
        obtain ⟨lid, pid, _, _, _, _, _, _, _, _, hstab⟩ := processAccepted_shape st e
        obtain ⟨hpos1, hdia1, hkeys1, hlen1, hok1⟩ :=
          hstab hok hneedE.1 hneedE.2.1 hneedE.2.2
        have hrun : runLines allowed st (Line.parsed e :: rest) =
            runLines allowed (processAccepted st e) rest := by
          simp [runLines, processLine, processEntry_eq_acc allowed st e h]
        have hneed1 : ∀ e2 ∈ acceptedEntries allowed rest,
            needPos e2 ∈ posCodes (processAccepted st e).db ∧
            needKey e2 ∈ lemmaKeys (processAccepted st e).db ∧
            ∀ d ∈ needDialects e2, d ∈ dialectCodes (processAccepted st e).db := by
          intro e2 he2
          have h2 := hneed e2 (by
            rw [hacc]
            exact List.mem_cons_of_mem _ he2)
          refine ⟨?_, ?_, ?_⟩
          · unfold posCodes
            rw [hpos1]
            exact h2.1
          · rw [hkeys1]
            exact h2.2.1
          · intro d hd
            unfold dialectCodes
            rw [hdia1]
            exact h2.2.2 d hd
        obtain ⟨hpos2, hdia2, hkeys2, hlen2⟩ := ih (processAccepted st e) hok1 hneed1
        rw [hrun]
        refine ⟨?_, ?_, ?_, ?_⟩
        · rw [hpos2, hpos1]
        · rw [hdia2, hdia1]
        · rw [hkeys2, hkeys1]
        · rw [hlen2, hlen1]
      · have hrun : runLines allowed st (Line.parsed e :: rest) =
            runLines allowed (processEntry allowed st e) rest := rfl
        obtain ⟨hdb, hpc, hdc, hlc, _, _⟩ := processEntry_eq_skip allowed st e h
        have hok1 : cachesOk (processEntry allowed st e) := by
          refine ⟨?_, ?_, ?_⟩
          · intro p hp
            rw [hpc] at hp
            show p.1 ∈ posCodes (processEntry allowed st e).db
            rw [hdb]
            exact hok.1 p hp
          · intro p hp
            rw [hdc] at hp
            show p.1 ∈ dialectCodes (processEntry allowed st e).db
            rw [hdb]
            exact hok.2.1 p hp
          · intro p hp
            rw [hlc] at hp
            show p.1 ∈ lemmaKeys (processEntry allowed st e).db
            rw [hdb]
            exact hok.2.2 p hp
        have hneed1 : ∀ e2 ∈ acceptedEntries allowed rest,
            needPos e2 ∈ posCodes (processEntry allowed st e).db ∧
            needKey e2 ∈ lemmaKeys (processEntry allowed st e).db ∧
            ∀ d ∈ needDialects e2, d ∈ dialectCodes (processEntry allowed st e).db := by
          intro e2 he2
          have h2 := hneed e2 (by simpa [acceptedEntries, h] using he2)
          rw [show (processEntry allowed st e).db = st.db from hdb]
          exact h2
        obtain ⟨hpos2, hdia2, hkeys2, hlen2⟩ := ih (processEntry allowed st e) hok1 hneed1
        rw [hrun]
        rw [hpos2, hdia2, hkeys2, hlen2, hdb]
        exact ⟨rfl, rfl, rfl, rfl⟩

end Oraia

namespace Oraia

/-- C3: for every input stream (and any initial store and allow-list), the
sum of the five named skip-reason counters plus the accepted-entry count
equals the number of non-blank input lines; indeed each non-blank line
increments exactly one of these tallies and each blank line none. -/
theorem claim_C3 (db : DB) (lines : List Line) (allowed : List String) :
    skipTally (import_jsonl db lines allowed) + (import_jsonl db lines allowed).inserted =
      countNonBlank lines ∧
    ∀ (st : ImportState) (l : Line),
      skipTally (processLine allowed st l) + (processLine allowed st l).inserted =
        skipTally st + st.inserted + (if isBlank l then 0 else 1) := by
  constructor
  · have h := runLines_tally allowed lines (initState db)
    simpa [import_jsonl, initState, skipTally] using h
  · exact processLine_tally allowed

/-- C2: importing the same stream twice (the second run against the store
populated by the first) leaves the Lemma, POS, and Dialect row counts
exactly as after one import — the ensure operations look up by natural key
before inserting — while doubling the Sense and Form row counts; whenever
the single import produced any sense (resp. form) rows at all, the
double import has strictly more. -/
theorem claim_C2 (allowed : List String) (lines : List Line) :
    (import_jsonl (import_jsonl emptyDB lines allowed).db lines allowed).db.lemmas.length =
      (import_jsonl emptyDB lines allowed).db.lemmas.length ∧
    (import_jsonl (import_jsonl emptyDB lines allowed).db lines allowed).db.pos.length =
      (import_jsonl emptyDB lines allowed).db.pos.length ∧
    (import_jsonl (import_jsonl emptyDB lines allowed).db lines allowed).db.dialect.length =
      (import_jsonl emptyDB lines allowed).db.dialect.length ∧
    (import_jsonl (import_jsonl emptyDB lines allowed).db lines allowed).db.sense.length =
      2 * (import_jsonl emptyDB lines allowed).db.sense.length ∧
    (import_jsonl (import_jsonl emptyDB lines allowed).db lines allowed).db.form.length =
      2 * (import_jsonl emptyDB lines allowed).db.form.length ∧
    (0 < (import_jsonl emptyDB lines allowed).db.sense.length →
      (import_jsonl emptyDB lines allowed).db.sense.length <
        (import_jsonl (import_jsonl emptyDB lines allowed).db lines allowed).db.sense.length) ∧
    (0 < (import_jsonl emptyDB lines allowed).db.form.length →
      (import_jsonl emptyDB lines allowed).db.form.length <
        (import_jsonl (import_jsonl emptyDB lines allowed).db lines allowed).db.form.length) := by
  have hinit : ∀ d : DB, cachesOk (initState d) := by
    intro d
    refine ⟨?_, ?_, ?_⟩ <;> intro p hp <;> simp [initState] at hp
  simp only [import_jsonl]
  have hcov := runLines_cover allowed lines (initState emptyDB) (hinit emptyDB)
  have hneed := hcov.2.2.2.2
  have hstab := runLines_stable allowed lines
    (initState (runLines allowed (initState emptyDB) lines).db)
    (hinit (runLines allowed (initState emptyDB) lines).db) hneed
  obtain ⟨hpos, hdia, hkeys, hlen⟩ := hstab
  have hc1 := runLines_counts allowed lines (initState emptyDB)
  have hc2 := runLines_counts allowed lines
    (initState (runLines allowed (initState emptyDB) lines).db)
  have hsense1 : (runLines allowed (initState emptyDB) lines).db.sense.length =
      sumBy (fun e => e.senses.length) (acceptedEntries allowed lines) := by
    have := hc1.1
    simpa [initState, emptyDB] using this
  have hform1 : (runLines allowed (initState emptyDB) lines).db.form.length =
      sumBy keptForms (acceptedEntries allowed lines) := by
    have := hc1.2
    simpa [initState, emptyDB] using this
  have hdbinit : ∀ d : DB, (initState d).db = d := fun d => rfl
  rw [hdbinit] at hpos hdia hlen
  obtain ⟨hc2s, hc2f⟩ := hc2
  rw [hdbinit] at hc2s hc2f
  refine ⟨hlen, by rw [hpos], by rw [hdia], ?_, ?_, ?_, ?_⟩
  · rw [hc2s]
    omega
  · rw [hc2f]
    omega
  · intro h0
    rw [hc2s]
    omega
  · intro h0
    rw [hc2f]
    omega

/-- Witness for C2: on the spec's one-entry example stream, the
second import strictly increases the sense and form row counts. -/
theorem claim_C2_witness :
    (import_jsonl emptyDB [Line.parsed demoEntry] ["noun"]).db.sense.length <
      (import_jsonl (import_jsonl emptyDB [Line.parsed demoEntry] ["noun"]).db
        [Line.parsed demoEntry] ["noun"]).db.sense.length ∧
    (import_jsonl emptyDB [Line.parsed demoEntry] ["noun"]).db.form.length <
      (import_jsonl (import_jsonl emptyDB [Line.parsed demoEntry] ["noun"]).db
        [Line.parsed demoEntry] ["noun"]).db.form.length := by
  have h := claim_C2 ["noun"] [Line.parsed demoEntry]
  exact ⟨h.2.2.2.2.2.1 (by decide), h.2.2.2.2.2.2 (by decide)⟩

/-- C10: a sense whose gloss list is missing or empty yields the
placeholder primary gloss `"?"` with a null definition, and the importer
still inserts a Sense row for it (the row's gloss column, which the schema
declares NOT NULL, is the non-null placeholder): the accepted entry
contributes one sense row per sense, no skip reason is tallied, and the row
inserted for an empty-gloss sense carries gloss `"?"` and definition
`none`. -/
theorem claim_C10 (allowed : List String) (st : ImportState) (e : Entry) (tags : List String)
    (hacc : Accepts allowed e) :
    extract_gloss { glosses := [], tags := tags } = ("?", none) ∧
    (processEntry allowed st e).db.sense.length = st.db.sense.length + e.senses.length ∧
    skipTally (processEntry allowed st e) = skipTally st ∧
    ∀ i s, e.senses[i]? = some s → s.glosses = [] →
      ∃ lid pid, (processEntry allowed st e).db.sense[st.db.sense.length + i]? =
        some ({ lemma_id := lid, pos_id := pid, gloss := "?", definition := none,
                sense_order := i } : SenseRow) := by
  rw [processEntry_eq_acc allowed st e hacc]
  obtain ⟨lid, pid, hsense, _, _, htal, _, _, _, _, _⟩ := processAccepted_shape st e
  refine ⟨rfl, ?_, htal, ?_⟩
  · rw [hsense]
    simp [senseRows, senseRowsAux_length]
  · intro i s hi hg
    refine ⟨lid, pid, ?_⟩
    rw [hsense]
    have hglo : extract_gloss s = ("?", none) := by
      rcases s with ⟨gl, tg⟩
      have : gl = [] := hg
      subst this
      rfl
    have hrow := senseRowsAux_get lid pid e.senses 0 i s hi
    rw [List.getElem?_append_right (by omega)]
    simp only [Nat.add_sub_cancel_left]
    show (senseRowsAux lid pid 0 e.senses)[i]? = _
    rw [hrow, hglo]
    simp

/-- Witness for C10: a concrete accepted entry with one empty-gloss sense
gets a sense row with the placeholder gloss. -/
theorem claim_C10_witness :
    ∃ lid pid, (processEntry ["noun"] (initState emptyDB) c10Entry).db.sense[0]? =
      some ({ lemma_id := lid, pos_id := pid, gloss := "?", definition := none,
              sense_order := 0 } : SenseRow) := by
  have h := claim_C10 ["noun"] (initState emptyDB) c10Entry [] (by decide)
  have h4 := h.2.2.2 0 { glosses := [], tags := [] } (by decide) rfl
  simpa [initState, emptyDB] using h4

end Oraia
